import Mathlib

/-!
Verification of core algorithms of the `vscode-pwa` debug adapter.

The definitions below are shallow embeddings of the TypeScript source:
* `src/adapter/sourceMap.ts` (source-map parsing and lookup),
* `src/browser/browserDelegate.ts` (path/url resolution),
* the breakpoint manager, stack trace and launcher modules.

JavaScript numbers that only ever hold integers are modelled as `Int`
(or `Nat` where the source guarantees non-negativity); JavaScript
`undefined` is modelled with `Option`; JavaScript strings are modelled
as `List Char` where character-level operations matter.
-/

/-! ## SourceMapEntry (src/adapter/sourceMap.ts, class SourceMapEntry) -/

structure SourceMapEntry where
  lineNumber : Int
  columnNumber : Int
  sourceUrl : Option String := none
  sourceLineNumber : Option Int := none
  sourceColumnNumber : Option Int := none
  name : Option String := none
deriving Repr, DecidableEq, Inhabited

/-- `SourceMapEntry.compare`: lexicographic comparison by
`(lineNumber, columnNumber)`, returning a signed difference. -/
def SourceMapEntry.compare (entry1 entry2 : SourceMapEntry) : Int :=
  if entry1.lineNumber ≠ entry2.lineNumber then entry1.lineNumber - entry2.lineNumber
  else entry1.columnNumber - entry2.columnNumber

/-- JavaScript `a || b` on numbers: `a` when non-zero, else `b`. -/
def jsOr (a b : Int) : Int :=
  if a ≠ 0 then a else b

/-! ## Binary searches (`upperBound`, `lowerBound`) -/

/-- Loop of `upperBound`: binary search narrowing `[l, r)`.  The interval
shrinks at every step, so a fuel of `array.length` (≥ the initial interval
width) never runs out; fuel only makes the recursion structural.
Out-of-range reads (which the source never performs) yield `default`. -/
def upperBoundAux [Inhabited α] (array : List α) (comparator : α → Int) :
    Nat → Nat → Nat → Nat
  | 0, _l, r => r
  | fuel + 1, l, r =>
    if l < r then
      if comparator (array.getD ((l + r) / 2) default) ≥ 0 then
        upperBoundAux array comparator fuel ((l + r) / 2 + 1) r
      else
        upperBoundAux array comparator fuel l ((l + r) / 2)
    else r

/-- `upperBound`: first index whose element compares negative. -/
def upperBound [Inhabited α] (array : List α) (comparator : α → Int) : Nat :=
  upperBoundAux array comparator array.length 0 array.length

/-- Loop of `lowerBound`. -/
def lowerBoundAux [Inhabited α] (array : List α) (comparator : α → Int) :
    Nat → Nat → Nat → Nat
  | 0, _l, r => r
  | fuel + 1, l, r =>
    if l < r then
      if comparator (array.getD ((l + r) / 2) default) > 0 then
        lowerBoundAux array comparator fuel ((l + r) / 2 + 1) r
      else
        lowerBoundAux array comparator fuel l ((l + r) / 2)
    else r

/-- `lowerBound`: first index whose element compares non-positive. -/
def lowerBound [Inhabited α] (array : List α) (comparator : α → Int) : Nat :=
  lowerBoundAux array comparator array.length 0 array.length

/-- `SourceMap.findEntry`: `upperBound` with the comparator
`lineNumber - entry.lineNumber || columnNumber - entry.columnNumber`,
then the element one before the found index (or `undefined`). -/
def SourceMap.findEntry (mappings : List SourceMapEntry) (lineNumber columnNumber : Int) :
    Option SourceMapEntry :=
  let index := upperBound mappings
    (fun entry => jsOr (lineNumber - entry.lineNumber) (columnNumber - entry.columnNumber))
  if index ≠ 0 then mappings.get? (index - 1) else none

/-! ### Correctness of the binary searches -/

theorem upperBoundAux_spec [Inhabited α] (array : List α) (comparator : α → Int)
    (hmono : ∀ i j : Nat, i ≤ j → j < array.length →
      0 ≤ comparator (array.getD j default) → 0 ≤ comparator (array.getD i default))
    (fuel l r : Nat) (hfuel : r - l ≤ fuel) (hlr : l ≤ r) (hr : r ≤ array.length)
    (hl : ∀ i, i < l → 0 ≤ comparator (array.getD i default))
    (hrneg : ∀ i, r ≤ i → i < array.length → comparator (array.getD i default) < 0) :
    l ≤ upperBoundAux array comparator fuel l r ∧
    upperBoundAux array comparator fuel l r ≤ r ∧
    (∀ i, i < upperBoundAux array comparator fuel l r →
      0 ≤ comparator (array.getD i default)) ∧
    (∀ i, upperBoundAux array comparator fuel l r ≤ i → i < array.length →
      comparator (array.getD i default) < 0) := by
  induction fuel generalizing l r with
  | zero =>
    have hrl : l = r := by omega
    subst hrl
    exact ⟨le_refl _, le_refl _, fun i hi => hl i hi, hrneg⟩
  | succ fuel ih =>
    rw [upperBoundAux]
    by_cases h : l < r
    · simp only [h, if_true]
      by_cases hc : comparator (array.getD ((l + r) / 2) default) ≥ 0
      · simp only [hc, if_true]
        obtain ⟨h1, h2, h3, h4⟩ := ih ((l + r) / 2 + 1) r
          (by omega) (by omega) hr
          (fun i hi => hmono i ((l + r) / 2) (by omega) (by omega) hc)
          hrneg
        exact ⟨by omega, h2, h3, h4⟩
      · simp only [hc, if_false]
        push_neg at hc
        obtain ⟨h1, h2, h3, h4⟩ := ih l ((l + r) / 2)
          (by omega) (by omega) (by omega) hl
          (fun i hi hilen => by
            by_contra hpos
            push_neg at hpos
            exact absurd (hmono ((l + r) / 2) i hi hilen hpos) (by omega))
        exact ⟨h1, by omega, h3, h4⟩
    · simp only [h, if_false]
      exact ⟨hlr, le_refl _, fun i hi => hl i (by omega), hrneg⟩

theorem lowerBoundAux_spec [Inhabited α] (array : List α) (comparator : α → Int)
    (hmono : ∀ i j : Nat, i ≤ j → j < array.length →
      0 < comparator (array.getD j default) → 0 < comparator (array.getD i default))
    (fuel l r : Nat) (hfuel : r - l ≤ fuel) (hlr : l ≤ r) (hr : r ≤ array.length)
    (hl : ∀ i, i < l → 0 < comparator (array.getD i default))
    (hrneg : ∀ i, r ≤ i → i < array.length → comparator (array.getD i default) ≤ 0) :
    l ≤ lowerBoundAux array comparator fuel l r ∧
    lowerBoundAux array comparator fuel l r ≤ r ∧
    (∀ i, i < lowerBoundAux array comparator fuel l r →
      0 < comparator (array.getD i default)) ∧
    (∀ i, lowerBoundAux array comparator fuel l r ≤ i → i < array.length →
      comparator (array.getD i default) ≤ 0) := by
  induction fuel generalizing l r with
  | zero =>
    have hrl : l = r := by omega
    subst hrl
    exact ⟨le_refl _, le_refl _, fun i hi => hl i hi, hrneg⟩
  | succ fuel ih =>
    rw [lowerBoundAux]
    by_cases h : l < r
    · simp only [h, if_true]
      by_cases hc : comparator (array.getD ((l + r) / 2) default) > 0
      · simp only [hc, if_true]
        obtain ⟨h1, h2, h3, h4⟩ := ih ((l + r) / 2 + 1) r
          (by omega) (by omega) hr
          (fun i hi => hmono i ((l + r) / 2) (by omega) (by omega) hc)
          hrneg
        exact ⟨by omega, h2, h3, h4⟩
      · simp only [hc, if_false]
        push_neg at hc
        obtain ⟨h1, h2, h3, h4⟩ := ih l ((l + r) / 2)
          (by omega) (by omega) (by omega) hl
          (fun i hi hilen => by
            by_contra hpos
            push_neg at hpos
            exact absurd (hmono ((l + r) / 2) i hi hilen hpos) (by omega))
        exact ⟨h1, by omega, h3, h4⟩
    · simp only [h, if_false]
      exact ⟨hlr, le_refl _, fun i hi => hl i (by omega), hrneg⟩

/-! ### Claim C2: `findEntry` returns the greatest entry at or before the query -/

/-- `(entry.lineNumber, entry.columnNumber)` is lexicographically at or
before `(line, col)`. -/
def posLe (entry : SourceMapEntry) (line col : Int) : Prop :=
  entry.lineNumber < line ∨ (entry.lineNumber = line ∧ entry.columnNumber ≤ col)

instance (entry : SourceMapEntry) (line col : Int) : Decidable (posLe entry line col) := by
  unfold posLe; exact inferInstance

/-- Lexicographic order on generated positions of entries. -/
def lexLeEntry (a b : SourceMapEntry) : Prop :=
  a.lineNumber < b.lineNumber ∨
    (a.lineNumber = b.lineNumber ∧ a.columnNumber ≤ b.columnNumber)

instance (a b : SourceMapEntry) : Decidable (lexLeEntry a b) := by
  unfold lexLeEntry; exact inferInstance

theorem compare_nonpos_iff (a b : SourceMapEntry) :
    SourceMapEntry.compare a b ≤ 0 ↔ lexLeEntry a b := by
  unfold SourceMapEntry.compare lexLeEntry
  split_ifs with h
  · omega
  · omega

theorem jsOr_nonneg_iff (entry : SourceMapEntry) (line col : Int) :
    0 ≤ jsOr (line - entry.lineNumber) (col - entry.columnNumber) ↔ posLe entry line col := by
  unfold jsOr posLe
  split_ifs with h
  · omega
  · omega

theorem lexLeEntry_posLe_trans {a b : SourceMapEntry} {line col : Int}
    (hab : lexLeEntry a b) (hb : posLe b line col) : posLe a line col := by
  unfold lexLeEntry at hab
  unfold posLe at hb ⊢
  omega

/-- C2: for a `SourceMap` whose `mappings` are sorted by
`SourceMapEntry.compare`, `findEntry(line, col)` returns the entry with
the greatest `(lineNumber, columnNumber)` lexicographically at or before
`(line, col)` (`upperBound` minus one), and `undefined` when no entry is
at or before the query — in particular on an empty mappings array. -/
theorem SourceMap.findEntry_spec (mappings : List SourceMapEntry) (line col : Int)
    (hsorted : mappings.Pairwise fun a b => SourceMapEntry.compare a b ≤ 0) :
    match SourceMap.findEntry mappings line col with
    | some e => e ∈ mappings ∧ posLe e line col ∧
        ∀ e' ∈ mappings, posLe e' line col → lexLeEntry e' e
    | none => ∀ e' ∈ mappings, ¬ posLe e' line col := by
  have hget := List.pairwise_iff_get.mp hsorted
  set cmp : SourceMapEntry → Int :=
    fun entry => jsOr (line - entry.lineNumber) (col - entry.columnNumber) with hcmp
  have hgetD : ∀ (i : Nat) (h : i < mappings.length),
      mappings.getD i default = mappings.get ⟨i, h⟩ := by
    intro i h
    rw [List.getD_eq_getElem?_getD, List.getElem?_eq_getElem h]; rfl
  have hmono : ∀ i j : Nat, i ≤ j → j < mappings.length →
      0 ≤ cmp (mappings.getD j default) → 0 ≤ cmp (mappings.getD i default) := by
    intro i j hij hj hcj
    rcases Nat.eq_or_lt_of_le hij with rfl | hlt
    · exact hcj
    · rw [hgetD j hj] at hcj
      rw [hgetD i (by omega)]
      rw [hcmp] at hcj ⊢
      rw [jsOr_nonneg_iff] at hcj ⊢
      have hcompare := hget ⟨i, by omega⟩ ⟨j, hj⟩ hlt
      rw [compare_nonpos_iff] at hcompare
      exact lexLeEntry_posLe_trans hcompare hcj
  obtain ⟨h1, h2, h3, h4⟩ := upperBoundAux_spec mappings cmp hmono
    mappings.length 0 mappings.length
    (by omega) (Nat.zero_le _) (le_refl _) (fun i hi => absurd hi (Nat.not_lt_zero i))
    (fun i hi hlen => absurd hlen (by omega))
  unfold SourceMap.findEntry upperBound
  rw [← hcmp]
  by_cases hz : upperBoundAux mappings cmp mappings.length 0 mappings.length = 0
  · simp only [hz, ne_eq, not_true_eq_false, if_false]
    intro e' he' hpos
    obtain ⟨⟨j, hj⟩, rfl⟩ := List.mem_iff_get.mp he'
    have := h4 j (by omega) hj
    rw [hgetD j hj, hcmp, ← not_le] at this
    exact this ((jsOr_nonneg_iff _ line col).mpr hpos)
  · simp only [ne_eq, hz, not_false_eq_true, if_true]
    set k := upperBoundAux mappings cmp mappings.length 0 mappings.length with hk
    have hk1 : k - 1 < mappings.length := by omega
    rw [List.get?_eq_get hk1]
    simp only
    refine ⟨List.get_mem mappings (k - 1) hk1, ?_, ?_⟩
    · have := h3 (k - 1) (by omega)
      rw [hgetD _ hk1, hcmp, jsOr_nonneg_iff] at this
      exact this
    · intro e' he' hpos
      obtain ⟨⟨j, hj⟩, rfl⟩ := List.mem_iff_get.mp he'
      have hjk : j < k := by
        by_contra hge
        have := h4 j (by omega) hj
        rw [hgetD j hj, hcmp, ← not_le] at this
        exact this ((jsOr_nonneg_iff _ line col).mpr hpos)
      rcases Nat.lt_or_ge j (k - 1) with hlt | hge
      · have := hget ⟨j, hj⟩ ⟨k - 1, hk1⟩ hlt
        rw [compare_nonpos_iff] at this
        exact this
      · have hj_eq : j = k - 1 := by omega
        subst hj_eq
        unfold lexLeEntry
        omega

/-! ## Claim C3: `findReverseEntry` -/

/-- `sourceMappingComparator` (nested in `SourceMap._reversedMappings`).
The `!==` tests compare the raw (possibly `undefined`) fields, while the
differences use `x || 0`, i.e. `Option.getD 0`. -/
def sourceMappingComparator (a b : SourceMapEntry) : Int :=
  if a.sourceLineNumber ≠ b.sourceLineNumber then
    a.sourceLineNumber.getD 0 - b.sourceLineNumber.getD 0
  else if a.sourceColumnNumber ≠ b.sourceColumnNumber then
    a.sourceColumnNumber.getD 0 - b.sourceColumnNumber.getD 0
  else if a.lineNumber ≠ b.lineNumber then a.lineNumber - b.lineNumber
  else a.columnNumber - b.columnNumber

/-- One insertion step of the stable sort modelling `Array.prototype.sort`:
`x` is placed before the first element it strictly precedes. -/
def insertCmp (cmp : α → α → Int) (x : α) : List α → List α
  | [] => [x]
  | y :: ys => if cmp x y < 0 then x :: y :: ys else y :: insertCmp cmp x ys

/-- Stable sort by a JavaScript-style comparator (models `Array.sort`). -/
def sortCmp (cmp : α → α → Int) (l : List α) : List α :=
  l.foldl (fun acc x => insertCmp cmp x acc) []

theorem insertCmp_perm (cmp : α → α → Int) (x : α) (l : List α) :
    List.Perm (insertCmp cmp x l) (x :: l) := by
  induction l with
  | nil => rfl
  | cons y ys ih =>
    unfold insertCmp
    split_ifs
    · rfl
    · exact List.Perm.trans (List.Perm.cons y ih) (List.Perm.swap x y ys)

theorem sortCmp_perm (cmp : α → α → Int) (l : List α) :
    List.Perm (sortCmp cmp l) l := by
  suffices h : ∀ (l acc : List α),
      List.Perm (l.foldl (fun acc x => insertCmp cmp x acc) acc) (acc ++ l) by
    simpa using h l []
  intro l
  induction l with
  | nil => intro acc; simp
  | cons x xs ih =>
    intro acc
    simp only [List.foldl_cons]
    refine List.Perm.trans (ih (insertCmp cmp x acc)) ?_
    have h1 : List.Perm (insertCmp cmp x acc ++ xs) ((x :: acc) ++ xs) :=
      (insertCmp_perm cmp x acc).append_right xs
    refine List.Perm.trans h1 ?_
    simpa using (@List.perm_middle _ x acc xs).symm

theorem insertCmp_pairwise (cmp : α → α → Int) (P : α → Prop)
    (hflip : ∀ a b, P a → P b → ¬ cmp a b < 0 → cmp b a ≤ 0)
    (htrans : ∀ a b c, P a → P b → P c → cmp a b ≤ 0 → cmp b c ≤ 0 → cmp a c ≤ 0)
    (x : α) (hx : P x) (l : List α) (hl : ∀ y ∈ l, P y)
    (hp : l.Pairwise fun a b => cmp a b ≤ 0) :
    (insertCmp cmp x l).Pairwise fun a b => cmp a b ≤ 0 := by
  induction l with
  | nil => simp [insertCmp]
  | cons y ys ih =>
    rw [List.pairwise_cons] at hp
    unfold insertCmp
    split_ifs with hxy
    · refine List.Pairwise.cons ?_ (List.Pairwise.cons hp.1 hp.2)
      intro z hz
      rcases List.mem_cons.mp hz with rfl | hzys
      · exact le_of_lt hxy
      · exact htrans x y z hx (hl y (List.mem_cons_self y ys)) (hl z (List.mem_cons_of_mem y hzys))
          (le_of_lt hxy) (hp.1 z hzys)
    · refine List.Pairwise.cons ?_ (ih (fun z hz => hl z (List.mem_cons_of_mem y hz)) hp.2)
      intro z hz
      have hz' := (insertCmp_perm cmp x ys).mem_iff.mp hz
      rcases List.mem_cons.mp hz' with rfl | hzys
      · exact hflip z y hx (hl y (List.mem_cons_self y ys)) hxy
      · exact hp.1 z hzys

theorem sortCmp_pairwise (cmp : α → α → Int) (P : α → Prop)
    (hflip : ∀ a b, P a → P b → ¬ cmp a b < 0 → cmp b a ≤ 0)
    (htrans : ∀ a b c, P a → P b → P c → cmp a b ≤ 0 → cmp b c ≤ 0 → cmp a c ≤ 0)
    (l : List α) (hl : ∀ y ∈ l, P y) :
    (sortCmp cmp l).Pairwise fun a b => cmp a b ≤ 0 := by
  suffices h : ∀ (l acc : List α), (∀ y ∈ l, P y) → (∀ y ∈ acc, P y) →
      (acc.Pairwise fun a b => cmp a b ≤ 0) →
      ((l.foldl (fun acc x => insertCmp cmp x acc) acc).Pairwise fun a b => cmp a b ≤ 0) by
    exact h l [] hl (by simp) (by simp)
  intro l
  induction l with
  | nil => intro acc _ _ hacc; simpa using hacc
  | cons x xs ih =>
    intro acc hlP haccP hacc
    simp only [List.foldl_cons]
    refine ih (insertCmp cmp x acc) (fun y hy => hlP y (List.mem_cons_of_mem x hy)) ?_ ?_
    · intro y hy
      rcases List.mem_cons.mp ((insertCmp_perm cmp x acc).mem_iff.mp hy) with heq | hyacc
      · rw [heq]; exact hlP x (List.mem_cons_self x xs)
      · exact haccP y hyacc
    · exact insertCmp_pairwise cmp P hflip htrans x (hlP x (List.mem_cons_self x xs)) acc haccP hacc

/-- `SourceMap._reversedMappings`: the entries of one source, sorted by
source position.  The `_sourceInfos` cache and its missing-key guard are
dropped: the guard can only short-circuit to the same empty result, and
the cache is semantically transparent. -/
def SourceMap.reversedMappings (mappings : List SourceMapEntry) (sourceUrl : String) :
    List SourceMapEntry :=
  sortCmp sourceMappingComparator (mappings.filter fun m => m.sourceUrl = some sourceUrl)

/-- `SourceMap.findReverseEntry`. -/
def SourceMap.findReverseEntry (mappings : List SourceMapEntry) (sourceUrl : String)
    (lineNumber columnNumber : Int) : Option SourceMapEntry :=
  let ms := SourceMap.reversedMappings mappings sourceUrl
  let first := lowerBound ms fun m => lineNumber - m.sourceLineNumber.getD 0
  let last := upperBound ms fun m => lineNumber - m.sourceLineNumber.getD 0
  if first ≥ ms.length ∨ (ms.getD first default).sourceLineNumber ≠ some lineNumber then
    none
  else
    let columnMappings := (ms.drop first).take (last - first)
    if columnMappings.length = 0 then none
    else
      let index := lowerBound columnMappings fun m => columnNumber - m.sourceColumnNumber.getD 0
      if index ≥ columnMappings.length then
        some (columnMappings.getD (columnMappings.length - 1) default)
      else
        some (columnMappings.getD index default)

theorem listGetD_eq_get [Inhabited α] (l : List α) (i : Nat) (h : i < l.length) :
    l.getD i default = l.get ⟨i, h⟩ := by
  rw [List.getD_eq_getElem?_getD, List.getElem?_eq_getElem h]; rfl

theorem take_drop_get (l : List α) (n k i : Nat) (hi : i < ((l.drop n).take k).length)
    (h2 : n + i < l.length) : ((l.drop n).take k).get ⟨i, hi⟩ = l.get ⟨n + i, h2⟩ := by
  simp [List.getElem_take, List.getElem_drop]

/-- A non-positive `sourceMappingComparator` bounds the defaulted source lines. -/
theorem smc_nonpos_srcLine {a b : SourceMapEntry}
    (h : sourceMappingComparator a b ≤ 0) :
    a.sourceLineNumber.getD 0 ≤ b.sourceLineNumber.getD 0 := by
  unfold sourceMappingComparator at h
  by_cases h1 : a.sourceLineNumber ≠ b.sourceLineNumber
  · rw [if_pos h1] at h
    omega
  · push_neg at h1
    rw [h1]

/-- With equal source lines, a non-positive comparator bounds the columns. -/
theorem smc_nonpos_srcCol {a b : SourceMapEntry}
    (h : sourceMappingComparator a b ≤ 0)
    (hline : a.sourceLineNumber = b.sourceLineNumber) :
    a.sourceColumnNumber.getD 0 ≤ b.sourceColumnNumber.getD 0 := by
  unfold sourceMappingComparator at h
  rw [if_neg (by simp [hline])] at h
  by_cases h2 : a.sourceColumnNumber ≠ b.sourceColumnNumber
  · rw [if_pos h2] at h
    omega
  · push_neg at h2
    rw [h2]

theorem smc_flip {a b : SourceMapEntry}
    (h : ¬ sourceMappingComparator a b < 0) : sourceMappingComparator b a ≤ 0 := by
  unfold sourceMappingComparator at h ⊢
  by_cases h1 : a.sourceLineNumber ≠ b.sourceLineNumber
  · rw [if_pos h1] at h
    rw [if_pos (Ne.symm h1)]
    omega
  · push_neg at h1
    rw [if_neg (by simp [h1])] at h
    rw [if_neg (by simp [h1])]
    by_cases h2 : a.sourceColumnNumber ≠ b.sourceColumnNumber
    · rw [if_pos h2] at h
      rw [if_pos (Ne.symm h2)]
      omega
    · push_neg at h2
      rw [if_neg (by simp [h2])] at h
      rw [if_neg (by simp [h2])]
      by_cases h3 : a.lineNumber ≠ b.lineNumber
      · rw [if_pos h3] at h
        rw [if_pos (Ne.symm h3)]
        omega
      · push_neg at h3
        rw [if_neg (by simp [h3])] at h
        rw [if_neg (by simp [h3])]
        omega

/-- On entries whose source fields are present, `sourceMappingComparator`
is transitive (the `!==` guards then agree with value equality). -/
theorem smc_trans {a b c : SourceMapEntry}
    (ha : a.sourceLineNumber.isSome ∧ a.sourceColumnNumber.isSome)
    (hb : b.sourceLineNumber.isSome ∧ b.sourceColumnNumber.isSome)
    (hc : c.sourceLineNumber.isSome ∧ c.sourceColumnNumber.isSome)
    (hab : sourceMappingComparator a b ≤ 0) (hbc : sourceMappingComparator b c ≤ 0) :
    sourceMappingComparator a c ≤ 0 := by
  obtain ⟨la, hla⟩ := Option.isSome_iff_exists.mp ha.1
  obtain ⟨ca, hca⟩ := Option.isSome_iff_exists.mp ha.2
  obtain ⟨lb, hlb⟩ := Option.isSome_iff_exists.mp hb.1
  obtain ⟨cb, hcb⟩ := Option.isSome_iff_exists.mp hb.2
  obtain ⟨lc, hlc⟩ := Option.isSome_iff_exists.mp hc.1
  obtain ⟨cc, hcc⟩ := Option.isSome_iff_exists.mp hc.2
  unfold sourceMappingComparator at hab hbc ⊢
  simp only [hla, hca, hlb, hcb, hlc, hcc, Option.getD_some, ne_eq,
    Option.some.injEq] at hab hbc ⊢
  split_ifs at hab hbc ⊢ <;> omega

/-- Single-entry mapping of source "s" at source position `(6, 0)`:
a counterexample input for the stated reading of claim C3. -/
def revEntryEx : SourceMapEntry :=
  { lineNumber := 0, columnNumber := 0, sourceUrl := some "s",
    sourceLineNumber := some 6, sourceColumnNumber := some 0 }

/-- C3 (counterexample): for the query `(5, 10)` the entry `(6, 0)` is the
(unique, hence smallest) entry of source "s" with source position at or
after the query, so the claim demands it be returned; the code returns
`undefined` because no entry lies on source line 5 exactly. -/
theorem SourceMap.findReverseEntry_cex :
    SourceMap.findReverseEntry [revEntryEx] "s" 5 10 = none ∧
    revEntryEx ∈ SourceMap.reversedMappings [revEntryEx] "s" ∧
    (5 < revEntryEx.sourceLineNumber.getD 0 ∨
      (revEntryEx.sourceLineNumber.getD 0 = 5 ∧ 10 ≤ revEntryEx.sourceColumnNumber.getD 0)) := by
  decide

/-- C3 (amended): `findReverseEntry` looks only at entries whose source
line **equals** the query line: among the reversed (source-position
sorted) entries of `sourceUrl`, if some entry lies on source line `line`,
it returns one with the smallest source column ≥ `col`, or, when every
entry on that line has a smaller column, the last entry on that line;
when no entry lies exactly on `line`, it returns `undefined` (even if
entries on later lines exist).  Entries of a real source map always carry
source positions, whence the `hsome` hypothesis. -/
theorem SourceMap.findReverseEntry_amended_spec (mappings : List SourceMapEntry)
    (url : String) (line col : Int)
    (hsome : ∀ m ∈ mappings, m.sourceUrl = some url →
      m.sourceLineNumber.isSome ∧ m.sourceColumnNumber.isSome) :
    match SourceMap.findReverseEntry mappings url line col with
    | none => ∀ m ∈ SourceMap.reversedMappings mappings url, m.sourceLineNumber ≠ some line
    | some e => e ∈ SourceMap.reversedMappings mappings url ∧
        e.sourceLineNumber = some line ∧
        ((col ≤ e.sourceColumnNumber.getD 0 ∧
          ∀ m ∈ SourceMap.reversedMappings mappings url, m.sourceLineNumber = some line →
            col ≤ m.sourceColumnNumber.getD 0 →
            e.sourceColumnNumber.getD 0 ≤ m.sourceColumnNumber.getD 0) ∨
         ((∀ m ∈ SourceMap.reversedMappings mappings url, m.sourceLineNumber = some line →
            m.sourceColumnNumber.getD 0 < col) ∧
          (∀ m ∈ SourceMap.reversedMappings mappings url, m.sourceLineNumber = some line →
            m.sourceColumnNumber.getD 0 ≤ e.sourceColumnNumber.getD 0))) := by
  simp only [SourceMap.findReverseEntry]
  set rev := SourceMap.reversedMappings mappings url with hrev
  have hperm : List.Perm rev (mappings.filter fun m => m.sourceUrl = some url) := by
    rw [hrev]; exact sortCmp_perm _ _
  have hfiltP : ∀ y ∈ (mappings.filter fun m => m.sourceUrl = some url),
      y.sourceLineNumber.isSome ∧ y.sourceColumnNumber.isSome := by
    intro y hy
    rw [List.mem_filter] at hy
    exact hsome y hy.1 (by simpa using hy.2)
  have hP : ∀ m ∈ rev, m.sourceLineNumber.isSome ∧ m.sourceColumnNumber.isSome :=
    fun m hm => hfiltP m (hperm.mem_iff.mp hm)
  have hpair : rev.Pairwise fun a b => sourceMappingComparator a b ≤ 0 := by
    rw [hrev]
    exact sortCmp_pairwise sourceMappingComparator
      (fun m => m.sourceLineNumber.isSome ∧ m.sourceColumnNumber.isSome)
      (fun a b _ _ h => smc_flip h)
      (fun a b c ha hb hc hab hbc => smc_trans ha hb hc hab hbc)
      _ hfiltP
  have hpair_get := List.pairwise_iff_get.mp hpair
  have hline_mono : ∀ (i j : Nat) (hi : i < rev.length) (hj : j < rev.length), i ≤ j →
      (rev.get ⟨i, hi⟩).sourceLineNumber.getD 0 ≤ (rev.get ⟨j, hj⟩).sourceLineNumber.getD 0 := by
    intro i j hi hj hij
    rcases Nat.eq_or_lt_of_le hij with rfl | hlt
    · exact le_refl _
    · exact smc_nonpos_srcLine (hpair_get ⟨i, hi⟩ ⟨j, hj⟩ hlt)
  -- spec of `first`
  set first := lowerBound rev (fun m => line - m.sourceLineNumber.getD 0) with hfirstdef
  unfold lowerBound at hfirstdef
  obtain ⟨f0, f1, f2, f3⟩ := lowerBoundAux_spec rev
    (fun m => line - m.sourceLineNumber.getD 0)
    (by
      intro i j hij hj hpos
      rw [listGetD_eq_get rev j hj] at hpos
      rw [listGetD_eq_get rev i (by omega)]
      have hmono := hline_mono i j (by omega) hj hij
      have hjlt := sub_pos.mp hpos
      exact sub_pos.mpr (by omega))
    rev.length 0 rev.length (by omega) (by omega) (le_refl _)
    (fun i hi => absurd hi (Nat.not_lt_zero i))
    (fun i h1 h2 => absurd h2 (by omega))
  rw [← hfirstdef] at f0 f1 f2 f3
  have f2' : ∀ i, i < first → ∀ h : i < rev.length,
      (rev.get ⟨i, h⟩).sourceLineNumber.getD 0 < line := by
    intro i hi h
    have h2 := f2 i hi
    rw [listGetD_eq_get rev i h] at h2
    exact sub_pos.mp h2
  have f3' : ∀ i, first ≤ i → ∀ h : i < rev.length,
      line ≤ (rev.get ⟨i, h⟩).sourceLineNumber.getD 0 := by
    intro i hi h
    have h2 := f3 i hi h
    rw [listGetD_eq_get rev i h] at h2
    exact sub_nonpos.mp h2
  -- spec of `last`
  set last := upperBound rev (fun m => line - m.sourceLineNumber.getD 0) with hlastdef
  unfold upperBound at hlastdef
  obtain ⟨g0, g1, g2, g3⟩ := upperBoundAux_spec rev
    (fun m => line - m.sourceLineNumber.getD 0)
    (by
      intro i j hij hj hpos
      rw [listGetD_eq_get rev j hj] at hpos
      rw [listGetD_eq_get rev i (by omega)]
      have hmono := hline_mono i j (by omega) hj hij
      have hjle := sub_nonneg.mp hpos
      exact sub_nonneg.mpr (by omega))
    rev.length 0 rev.length (by omega) (by omega) (le_refl _)
    (fun i hi => absurd hi (Nat.not_lt_zero i))
    (fun i h1 h2 => absurd h2 (by omega))
  rw [← hlastdef] at g0 g1 g2 g3
  have g2' : ∀ i, i < last → ∀ h : i < rev.length,
      (rev.get ⟨i, h⟩).sourceLineNumber.getD 0 ≤ line := by
    intro i hi h
    have h2 := g2 i hi
    rw [listGetD_eq_get rev i h] at h2
    exact sub_nonneg.mp h2
  have g3' : ∀ i, last ≤ i → ∀ h : i < rev.length,
      line < (rev.get ⟨i, h⟩).sourceLineNumber.getD 0 := by
    intro i hi h
    have h2 := g3 i hi h
    rw [listGetD_eq_get rev i h] at h2
    have := sub_neg.mp h2
    omega
  -- indices of entries on the query line sit in `[first, last)`
  have hidx_range : ∀ (j : Nat) (hj : j < rev.length),
      (rev.get ⟨j, hj⟩).sourceLineNumber = some line → first ≤ j ∧ j < last := by
    intro j hj hjline
    have hjD : (rev.get ⟨j, hj⟩).sourceLineNumber.getD 0 = line := by rw [hjline]; rfl
    constructor
    · by_contra h
      have := f2' j (by omega) hj
      omega
    · by_contra h
      have := g3' j (by omega) hj
      omega
  by_cases hg : first ≥ rev.length ∨ (rev.getD first default).sourceLineNumber ≠ some line
  · rw [if_pos hg]
    intro m hm hmline
    obtain ⟨⟨j, hj⟩, hjm⟩ := List.mem_iff_get.mp hm
    have hjline : (rev.get ⟨j, hj⟩).sourceLineNumber = some line := by rw [hjm]; exact hmline
    obtain ⟨hfj, _⟩ := hidx_range j hj hjline
    have hflen : first < rev.length := by omega
    rcases hg with hg1 | hg2
    · omega
    · rw [listGetD_eq_get rev first hflen] at hg2
      have hle1 := f3' first (le_refl _) hflen
      have hle2 := hline_mono first j hflen hj hfj
      have hjD : (rev.get ⟨j, hj⟩).sourceLineNumber.getD 0 = line := by rw [hjline]; rfl
      obtain ⟨lf, hlf⟩ := Option.isSome_iff_exists.mp
        (hP _ (List.get_mem rev first hflen)).1
      rw [hlf] at hle1 hle2
      rw [hjD] at hle2
      simp only [Option.getD_some] at hle1 hle2
      apply hg2
      rw [hlf]
      exact congrArg some (by omega)
  · have hnot := hg
    push_neg at hg
    obtain ⟨hflen', hfeq⟩ := hg
    have hflen : first < rev.length := hflen'
    rw [if_neg hnot]
    have hfeq' : (rev.get ⟨first, hflen⟩).sourceLineNumber = some line := by
      rw [← listGetD_eq_get rev first hflen]; exact hfeq
    have hfD : (rev.get ⟨first, hflen⟩).sourceLineNumber.getD 0 = line := by rw [hfeq']; rfl
    have hfl : first < last := by
      by_contra h
      have := g3' first (by omega) hflen
      omega
    set cm := (rev.drop first).take (last - first) with hcm
    have hcmlen : cm.length = last - first := by
      rw [hcm]
      simp only [List.length_take, List.length_drop]
      omega
    have hcmne : ¬ cm.length = 0 := by omega
    rw [if_neg hcmne]
    have hsub : List.Sublist cm rev := by
      rw [hcm]; exact (List.take_sublist _ _).trans (List.drop_sublist _ _)
    have hcm_mem_rev : ∀ m ∈ cm, m ∈ rev := fun m hm => hsub.subset hm
    have hcmget : ∀ (i : Nat) (hi : i < cm.length) (h2 : first + i < rev.length),
        cm.get ⟨i, hi⟩ = rev.get ⟨first + i, h2⟩ :=
      fun i hi h2 => take_drop_get rev first (last - first) i hi h2
    have hcmline : ∀ (i : Nat) (hi : i < cm.length),
        (cm.get ⟨i, hi⟩).sourceLineNumber = some line := by
      intro i hi
      have hfi : first + i < rev.length := by omega
      rw [hcmget i hi hfi]
      have h1 := f3' (first + i) (by omega) hfi
      have h2 := g2' (first + i) (by omega) hfi
      obtain ⟨v, hv⟩ := Option.isSome_iff_exists.mp
        (hP _ (List.get_mem rev (first + i) hfi)).1
      rw [hv] at h1 h2 ⊢
      simp only [Option.getD_some] at h1 h2
      exact congrArg some (by omega)
    have hcm_pair : cm.Pairwise fun a b => sourceMappingComparator a b ≤ 0 :=
      hpair.sublist hsub
    have hcm_get := List.pairwise_iff_get.mp hcm_pair
    have hcol_mono : ∀ (i j : Nat) (hi : i < cm.length) (hj : j < cm.length), i ≤ j →
        (cm.get ⟨i, hi⟩).sourceColumnNumber.getD 0 ≤
          (cm.get ⟨j, hj⟩).sourceColumnNumber.getD 0 := by
      intro i j hi hj hij
      rcases Nat.eq_or_lt_of_le hij with rfl | hlt
      · exact le_refl _
      · exact smc_nonpos_srcCol (hcm_get ⟨i, hi⟩ ⟨j, hj⟩ hlt)
          (by rw [hcmline i hi, hcmline j hj])
    set idx := lowerBound cm (fun m => col - m.sourceColumnNumber.getD 0) with hidxdef
    unfold lowerBound at hidxdef
    obtain ⟨c0, c1, c2, c3⟩ := lowerBoundAux_spec cm
      (fun m => col - m.sourceColumnNumber.getD 0)
      (by
        intro i j hij hj hpos
        rw [listGetD_eq_get cm j hj] at hpos
        rw [listGetD_eq_get cm i (by omega)]
        have hmono := hcol_mono i j (by omega) hj hij
        have := sub_pos.mp hpos
        exact sub_pos.mpr (by omega))
      cm.length 0 cm.length (by omega) (by omega) (le_refl _)
      (fun i hi => absurd hi (Nat.not_lt_zero i))
      (fun i h1 h2 => absurd h2 (by omega))
    rw [← hidxdef] at c0 c1 c2 c3
    have c2' : ∀ i, i < idx → ∀ h : i < cm.length,
        (cm.get ⟨i, h⟩).sourceColumnNumber.getD 0 < col := by
      intro i hi h
      have h2 := c2 i hi
      rw [listGetD_eq_get cm i h] at h2
      exact sub_pos.mp h2
    have c3' : ∀ i, idx ≤ i → ∀ h : i < cm.length,
        col ≤ (cm.get ⟨i, h⟩).sourceColumnNumber.getD 0 := by
      intro i hi h
      have h2 := c3 i hi h
      rw [listGetD_eq_get cm i h] at h2
      exact sub_nonpos.mp h2
    have hline_to_cm : ∀ m ∈ rev, m.sourceLineNumber = some line →
        ∃ (i : Nat) (hi : i < cm.length), cm.get ⟨i, hi⟩ = m := by
      intro m hm hml
      obtain ⟨⟨j, hj⟩, hjm⟩ := List.mem_iff_get.mp hm
      obtain ⟨hfj, hjl⟩ := hidx_range j hj (by rw [hjm]; exact hml)
      have hi : j - first < cm.length := by omega
      refine ⟨j - first, hi, ?_⟩
      have hfi : first + (j - first) < rev.length := by omega
      rw [hcmget (j - first) hi hfi]
      rw [← hjm]
      simp only [show first + (j - first) = j from by omega]
    by_cases hix : idx ≥ cm.length
    · rw [if_pos hix]
      have hlast_i : cm.length - 1 < cm.length := by omega
      rw [listGetD_eq_get cm (cm.length - 1) hlast_i]
      refine ⟨hcm_mem_rev _ (List.get_mem cm (cm.length - 1) hlast_i),
        hcmline _ hlast_i, Or.inr ⟨?_, ?_⟩⟩
      · intro m hm hml
        obtain ⟨i, hi, him⟩ := hline_to_cm m hm hml
        rw [← him]
        exact c2' i (by omega) hi
      · intro m hm hml
        obtain ⟨i, hi, him⟩ := hline_to_cm m hm hml
        rw [← him]
        exact hcol_mono i (cm.length - 1) hi hlast_i (by omega)
    · rw [if_neg hix]
      push_neg at hix
      rw [listGetD_eq_get cm idx hix]
      refine ⟨hcm_mem_rev _ (List.get_mem cm idx hix), hcmline _ hix,
        Or.inl ⟨c3' idx (le_refl _) hix, ?_⟩⟩
      intro m hm hml hcol
      obtain ⟨i, hi, him⟩ := hline_to_cm m hm hml
      have hige : idx ≤ i := by
        by_contra h
        have hlt := c2' i (by omega) hi
        rw [him] at hlt
        omega
      rw [← him]
      exact hcol_mono idx i hix hi hige

/-- Two entries of source "s" on source line 5, columns 2 and 8. -/
def revMapEx : List SourceMapEntry :=
  [{ lineNumber := 0, columnNumber := 0, sourceUrl := some "s",
     sourceLineNumber := some 5, sourceColumnNumber := some 2 },
   { lineNumber := 0, columnNumber := 4, sourceUrl := some "s",
     sourceLineNumber := some 5, sourceColumnNumber := some 8 }]

theorem SourceMap.findReverseEntry_amended_witness :
    (∀ m ∈ revMapEx, m.sourceUrl = some "s" →
      m.sourceLineNumber.isSome ∧ m.sourceColumnNumber.isSome) ∧
    (match SourceMap.findReverseEntry revMapEx "s" 5 4 with
     | none => ∀ m ∈ SourceMap.reversedMappings revMapEx "s", m.sourceLineNumber ≠ some 5
     | some e => e ∈ SourceMap.reversedMappings revMapEx "s" ∧
         e.sourceLineNumber = some 5 ∧
         ((4 ≤ e.sourceColumnNumber.getD 0 ∧
           ∀ m ∈ SourceMap.reversedMappings revMapEx "s", m.sourceLineNumber = some 5 →
             4 ≤ m.sourceColumnNumber.getD 0 →
             e.sourceColumnNumber.getD 0 ≤ m.sourceColumnNumber.getD 0) ∨
          ((∀ m ∈ SourceMap.reversedMappings revMapEx "s", m.sourceLineNumber = some 5 →
             m.sourceColumnNumber.getD 0 < 4) ∧
           (∀ m ∈ SourceMap.reversedMappings revMapEx "s", m.sourceLineNumber = some 5 →
             m.sourceColumnNumber.getD 0 ≤ e.sourceColumnNumber.getD 0)))) :=
  ⟨by decide, SourceMap.findReverseEntry_amended_spec revMapEx "s" 5 4 (by decide)⟩

/-! ## VLQ decoding and source-map parsing (claims C7, C10) -/

/-- 32-bit signed wrap-around, as applied by JavaScript bitwise operators. -/
def toInt32 (n : Int) : Int := (n + 2 ^ 31) % 2 ^ 32 - 2 ^ 31

/-- JavaScript `a << shift` for `0 ≤ a < 2^31`: the shift count is taken
mod 32 and the result wraps to a signed 32-bit value. -/
def jsShl (a : Int) (shift : Nat) : Int := toInt32 (a * 2 ^ (shift % 32))

/-- The base-64 alphabet of `base64Map`. -/
def base64Digits : List Char :=
  "ABCDEFGHIJKLMNOPQRSTUVWXYZabcdefghijklmnopqrstuvwxyz0123456789+/".data

/-- `base64Map[c]`: the digit value, or `undefined` for a character
outside the alphabet (including the `''` read past the end). -/
def base64Map (c : Char) : Option Nat := base64Digits.indexOf? c

/-- `isSeparator`. -/
def isSeparator (c : Char) : Bool := c = ',' || c = ';'

/-- The `do … while (digit & VLQ_CONTINUATION_MASK)` loop of `decodeVLQ`.
The iterator is modelled by its remaining characters; `next()` past the
end yields `''`, whose `base64Map` entry is `undefined`, so both the
empty iterator and an out-of-alphabet character make
`digit & VLQ_BASE_MASK` contribute `0` and end the loop. -/
def decodeVLQAux : List Char → Int → Nat → Int × List Char
  | [], result, _shift => (result, [])
  | c :: rest, result, shift =>
    match base64Map c with
    | none => (result, rest)
    | some d =>
      let result2 := result + jsShl (Int.ofNat (d &&& 31)) shift
      if d &&& 32 ≠ 0 then decodeVLQAux rest result2 (shift + 5)
      else (result2, rest)

/-- `decodeVLQ`: unsigned accumulation, then sign fix-up.  `result & 1`
and `result >>= 1` operate on the 32-bit image of the accumulator;
`>>` is an arithmetic (floor) shift. -/
def decodeVLQ (it : List Char) : Int × List Char :=
  let p := decodeVLQAux it 0 0
  let r32 := toInt32 p.1
  (if r32 % 2 ≠ 0 then -(Int.ediv r32 2) else Int.ediv r32 2, p.2)

/-- JavaScript array indexing `l[i]`: `undefined` when out of range. -/
def jsIndex (l : List α) (i : Int) : Option α :=
  if 0 ≤ i then l.get? i.toNat else none

/-- A source map (or section map) as consumed by `_parseMap`; the
unused `version` and `file` fields are omitted. -/
structure SourceMapV3Inner where
  sources : List String
  sourcesContent : Option (List String) := none
  mappings : String
  sourceRoot : Option String := none
  names : Option (List String) := none
deriving Repr, DecidableEq, Inhabited

structure SourceMapV3Offset where
  line : Int
  column : Int
deriving Repr, DecidableEq, Inhabited

structure SourceMapV3Section where
  offset : SourceMapV3Offset
  map : SourceMapV3Inner
deriving Repr, DecidableEq, Inhabited

/-- `SourceMapV3`.  `_forEachSection` never recurses into a section's own
sections, so section maps are `SourceMapV3Inner`. -/
structure SourceMapV3 where
  sources : List String
  sourcesContent : Option (List String) := none
  sections : Option (List SourceMapV3Section) := none
  mappings : String
  sourceRoot : Option String := none
  names : Option (List String) := none
deriving Repr, DecidableEq, Inhabited

/-- The inner `while (peek === ';')` loop: consumed tail and count. -/
def skipSemicolons : List Char → List Char × Nat
  | [] => ([], 0)
  | c :: rest =>
    if c = ';' then
      let p := skipSemicolons rest
      (p.1, p.2 + 1)
    else (c :: rest, 0)

/-- `!hasNext() || isSeparator(peek())`. -/
def peekStop : List Char → Bool
  | [] => true
  | c :: _ => isSeparator c

/-- The `while (true)` loop of `_parseMap`, pushing decoded entries onto
the shared array `acc`.  Every iteration consumes at least one character,
so a fuel of `length + 1` never runs out; fuel only makes the recursion
structural. -/
def parseMapLoop (sources names : List String) :
    Nat → List Char → Int → Int → Option String → Int → Int → Int → Int →
    List SourceMapEntry → List SourceMapEntry
  | 0, _, _, _, _, _, _, _, _, acc => acc
  | fuel + 1, it, lineNumber, columnNumber, sourceURL, sourceIndex,
      sourceLineNumber, sourceColumnNumber, nameIndex, acc =>
    let step1 : Option (List Char × Int × Int) :=
      match it with
      | ',' :: rest => some (rest, lineNumber, columnNumber)
      | _ =>
        let p := skipSemicolons it
        let ln := lineNumber + p.2
        let cn := if p.2 = 0 then columnNumber else 0
        if p.1.isEmpty then none else some (p.1, ln, cn)
    match step1 with
    | none => acc
    | some (it1, ln, cn) =>
      let d1 := decodeVLQ it1
      let cn2 := cn + d1.1
      if peekStop d1.2 then
        parseMapLoop sources names fuel d1.2 ln cn2 sourceURL sourceIndex
          sourceLineNumber sourceColumnNumber nameIndex
          (acc ++ [{ lineNumber := ln, columnNumber := cn2 }])
      else
        let d2 := decodeVLQ d1.2
        let sourceIndex2 := if d2.1 ≠ 0 then sourceIndex + d2.1 else sourceIndex
        let sourceURL2 := if d2.1 ≠ 0 then jsIndex sources sourceIndex2 else sourceURL
        let d3 := decodeVLQ d2.2
        let sourceLineNumber2 := sourceLineNumber + d3.1
        let d4 := decodeVLQ d3.2
        let sourceColumnNumber2 := sourceColumnNumber + d4.1
        if peekStop d4.2 then
          parseMapLoop sources names fuel d4.2 ln cn2 sourceURL2 sourceIndex2
            sourceLineNumber2 sourceColumnNumber2 nameIndex
            (acc ++ [{ lineNumber := ln, columnNumber := cn2, sourceUrl := sourceURL2,
                       sourceLineNumber := some sourceLineNumber2,
                       sourceColumnNumber := some sourceColumnNumber2 }])
        else
          let d5 := decodeVLQ d4.2
          let nameIndex2 := nameIndex + d5.1
          parseMapLoop sources names fuel d5.2 ln cn2 sourceURL2 sourceIndex2
            sourceLineNumber2 sourceColumnNumber2 nameIndex2
            (acc ++ [{ lineNumber := ln, columnNumber := cn2, sourceUrl := sourceURL2,
                       sourceLineNumber := some sourceLineNumber2,
                       sourceColumnNumber := some sourceColumnNumber2,
                       name := jsIndex names nameIndex2 }])

/-- `SourceMap._parseMap`: decode the section's entries onto the shared
array, then sort the whole array by `SourceMapEntry.compare`. -/
def parseMapInto (acc : List SourceMapEntry) (map : SourceMapV3Inner)
    (lineNumber columnNumber : Int) : List SourceMapEntry :=
  sortCmp SourceMapEntry.compare
    (parseMapLoop map.sources (map.names.getD []) (map.mappings.data.length + 1)
      map.mappings.data lineNumber columnNumber (jsIndex map.sources 0) 0 0 0 0 acc)

/-- `SourceMap.mappings()`: `_forEachSection` feeds `_parseMap` either the
whole map at offset `(0, 0)` or each section at its offset, one after
another into the shared array. -/
def SourceMap.mappingsOf (json : SourceMapV3) : List SourceMapEntry :=
  match json.sections with
  | none =>
    parseMapInto []
      { sources := json.sources, sourcesContent := json.sourcesContent,
        mappings := json.mappings, sourceRoot := json.sourceRoot,
        names := json.names } 0 0
  | some sections =>
    sections.foldl (fun acc s => parseMapInto acc s.map s.offset.line s.offset.column) []

theorem compare_flip {a b : SourceMapEntry} (h : ¬ SourceMapEntry.compare a b < 0) :
    SourceMapEntry.compare b a ≤ 0 := by
  unfold SourceMapEntry.compare at h ⊢
  by_cases h1 : a.lineNumber ≠ b.lineNumber
  · rw [if_pos h1] at h
    rw [if_pos (Ne.symm h1)]
    omega
  · push_neg at h1
    rw [if_neg (by simp [h1])] at h
    rw [if_neg (by simp [h1])]
    omega

theorem compare_trans {a b c : SourceMapEntry} (hab : SourceMapEntry.compare a b ≤ 0)
    (hbc : SourceMapEntry.compare b c ≤ 0) : SourceMapEntry.compare a c ≤ 0 := by
  rw [compare_nonpos_iff] at hab hbc ⊢
  unfold lexLeEntry at hab hbc ⊢
  omega

/-- C7: after construction / the first call to `mappings()`, the mappings
array is sorted by `SourceMapEntry.compare` — with or without `sections`,
and in particular when several sections are parsed one after another into
the shared array, because `_parseMap` re-sorts the whole array after each
section. -/
theorem SourceMap.mappingsOf_sorted (json : SourceMapV3) :
    (SourceMap.mappingsOf json).Pairwise fun a b => SourceMapEntry.compare a b ≤ 0 := by
  have hsorted : ∀ (acc : List SourceMapEntry) (map : SourceMapV3Inner) (ln cn : Int),
      (parseMapInto acc map ln cn).Pairwise fun a b => SourceMapEntry.compare a b ≤ 0 := by
    intro acc map ln cn
    exact sortCmp_pairwise SourceMapEntry.compare (fun _ => True)
      (fun a b _ _ h => compare_flip h)
      (fun a b c _ _ _ hab hbc => compare_trans hab hbc)
      _ (fun _ _ => trivial)
  unfold SourceMap.mappingsOf
  cases json.sections with
  | none => exact hsorted _ _ _ _
  | some sections =>
    have hfold : ∀ (ss : List SourceMapV3Section) (acc : List SourceMapEntry),
        (acc.Pairwise fun a b => SourceMapEntry.compare a b ≤ 0) →
        ((ss.foldl (fun acc s => parseMapInto acc s.map s.offset.line s.offset.column)
            acc).Pairwise fun a b => SourceMapEntry.compare a b ≤ 0) := by
      intro ss
      induction ss with
      | nil => intro acc h; exact h
      | cons s rest ih =>
        intro acc _h
        exact ih _ (hsorted _ _ _ _)
    exact hfold sections [] (by simp)

theorem decodeVLQAux_len (it : List Char) :
    ∀ (r : Int) (s : Nat),
      (decodeVLQAux it r s).2.length ≤ it.length ∧
      (it ≠ [] → (decodeVLQAux it r s).2.length < it.length) := by
  induction it with
  | nil => intro r s; simp [decodeVLQAux]
  | cons c rest ih =>
    intro r s
    unfold decodeVLQAux
    cases hb : base64Map c with
    | none => simp
    | some d =>
      simp only
      split_ifs with hcont
      · have := (ih (r + jsShl (Int.ofNat (d &&& 31)) s) (s + 5)).1
        constructor
        · simp only [List.length_cons]
          omega
        · intro _
          simp only [List.length_cons]
          omega
      · simp

/-- C10: `decodeVLQ` is total.  For every remaining input the loop
terminates with an integer result, consuming at least one character from
a non-empty input; an empty input or a leading character outside the
base-64 alphabet yields the `undefined` digit, whose masked continuation
bit is zero, ending the group immediately. -/
theorem decodeVLQ_total (it : List Char) :
    (decodeVLQ it).2.length ≤ it.length ∧
    (it ≠ [] → (decodeVLQ it).2.length < it.length) ∧
    decodeVLQ ([] : List Char) = (0, []) ∧
    (∀ c rest, it = c :: rest → base64Map c = none → decodeVLQ it = (0, rest)) := by
  refine ⟨(decodeVLQAux_len it 0 0).1, fun h => (decodeVLQAux_len it 0 0).2 h, by decide, ?_⟩
  intro c rest heq hb
  subst heq
  unfold decodeVLQ decodeVLQAux
  rw [hb]
  norm_num [toInt32]

theorem decodeVLQ_total_witness :
    (decodeVLQ ['!', 'A']).2.length ≤ (['!', 'A'] : List Char).length ∧
    (decodeVLQ ['!', 'A']).2.length < (['!', 'A'] : List Char).length ∧
    decodeVLQ ([] : List Char) = (0, []) ∧
    decodeVLQ ['!', 'A'] = (0, ['A']) :=
  ⟨(decodeVLQ_total ['!', 'A']).1,
   (decodeVLQ_total ['!', 'A']).2.1 (by decide),
   (decodeVLQ_total ['!', 'A']).2.2.1,
   (decodeVLQ_total ['!', 'A']).2.2.2 '!' ['A'] rfl (by decide)⟩

/-! ## Claim C9: `SourceMap.load` -/

/-- The XSSI-guard handling of `SourceMap.load`: when the body starts with
`)]}`, everything before the first newline is dropped (the newline itself
is kept — `substring(indexOf('\n'))` starts *at* the newline); when no
newline exists, `indexOf` returns `-1` and `substring(-1)` clamps to the
whole string. -/
def stripXssi (content : List Char) : List Char :=
  if content.take 3 = ")]\x7d".data then
    match content.findIdx? (fun c => c = '\n') with
    | some i => content.drop i
    | none => content
  else content

/-- `SourceMap.load`.  The external collaborators are parameters:
`fetchResult` is `none` when `utils.fetch` rejected, and `jsonParse`
models `JSON.parse`, `none` meaning a thrown `SyntaxError`; both failure
paths return `undefined` instead of propagating.  The constructed
`SourceMap` is represented by its `(url, payload)` constructor
arguments. -/
def SourceMap.load (url : String) (fetchResult : Option (List Char))
    (jsonParse : List Char → Option SourceMapV3) : Option (String × SourceMapV3) :=
  match fetchResult with
  | none => none
  | some content =>
    let content2 := stripXssi content
    match jsonParse content2 with
    | none => none
    | some payload => some (url, payload)

/-- A trivial parsed payload for the C9 counterexample. -/
def payloadEx : SourceMapV3 := { sources := [], mappings := "" }

/-- C9 (counterexample): for the body `")]\x7dx\nA"` the content handed to
`JSON.parse` is `"\nA"` — the code strips everything *before* the
newline but keeps the newline itself, whereas removing everything
*through* the newline would hand `"A"` to the parser. -/
theorem SourceMap.load_cex :
    SourceMap.load "u" (some ")]\x7dx\nA".data)
        (fun c => if c = "A".data then some payloadEx else none) = none ∧
    SourceMap.load "u" (some ")]\x7dx\nA".data)
        (fun c => if c = "\nA".data then some payloadEx else none) =
      some ("u", payloadEx) := by
  decide

theorem findIdx_newline_append (g rest : List Char) (hg : ∀ c ∈ g, c ≠ '\n') :
    List.findIdx? (fun c => c = '\n') (g ++ '\n' :: rest) = some g.length := by
  induction g with
  | nil => simp [List.findIdx?_cons]
  | cons c cs ih =>
    have hc : c ≠ '\n' := hg c (List.mem_cons_self c cs)
    simp only [List.cons_append, List.findIdx?_cons, List.length_cons]
    rw [if_neg (by simp [hc])]
    rw [List.findIdx?_succ]
    rw [ih (fun x hx => hg x (List.mem_cons_of_mem c hx))]
    rfl

theorem findIdx_newline_none (g : List Char) (hg : ∀ c ∈ g, c ≠ '\n') :
    List.findIdx? (fun c => c = '\n') g = none := by
  induction g with
  | nil => rfl
  | cons c cs ih =>
    have hc : c ≠ '\n' := hg c (List.mem_cons_self c cs)
    simp only [List.findIdx?_cons]
    rw [if_neg (by simp [hc])]
    rw [List.findIdx?_succ]
    rw [ih (fun x hx => hg x (List.mem_cons_of_mem c hx))]
    rfl

/-- C9 (amended): `SourceMap.load` returns `undefined` on fetch failure
and on JSON parse failure instead of throwing; when the body starts with
`)]}` it removes everything *before* the next newline — keeping the
newline itself — before JSON-parsing, and leaves the body unchanged when
no newline follows the guard; other bodies are parsed as-is. -/
theorem SourceMap.load_amended_spec (url : String)
    (jsonParse : List Char → Option SourceMapV3) :
    SourceMap.load url none jsonParse = none ∧
    (∀ content, jsonParse (stripXssi content) = none →
      SourceMap.load url (some content) jsonParse = none) ∧
    (∀ content payload, jsonParse (stripXssi content) = some payload →
      SourceMap.load url (some content) jsonParse = some (url, payload)) ∧
    (∀ g rest, g.take 3 = ")]\x7d".data → (∀ c ∈ g, c ≠ '\n') →
      stripXssi (g ++ '\n' :: rest) = '\n' :: rest) ∧
    (∀ content, content.take 3 ≠ ")]\x7d".data → stripXssi content = content) ∧
    (∀ g, g.take 3 = ")]\x7d".data → (∀ c ∈ g, c ≠ '\n') → stripXssi g = g) := by
  refine ⟨rfl, ?_, ?_, ?_, ?_, ?_⟩
  · intro content h
    simp only [SourceMap.load]
    rw [h]
  · intro content payload h
    simp only [SourceMap.load]
    rw [h]
  · intro g rest hg3 hgnl
    have hglen : 3 ≤ g.length := by
      have h := congrArg List.length hg3
      rw [List.length_take] at h
      have h3 : (")]\x7d".data).length = 3 := rfl
      omega
    unfold stripXssi
    rw [if_pos (by rw [List.take_append_of_le_length hglen]; exact hg3)]
    rw [findIdx_newline_append g rest hgnl]
    simp only
    rw [List.drop_left]
  · intro content h
    unfold stripXssi
    rw [if_neg h]
  · intro g hg3 hgnl
    unfold stripXssi
    rw [if_pos hg3]
    rw [findIdx_newline_none g hgnl]

theorem SourceMap.load_amended_witness :
    SourceMap.load "u" none (fun _ => none) = none ∧
    (")]\x7dx".data.take 3 = ")]\x7d".data) ∧
    stripXssi (")]\x7dx".data ++ '\n' :: "A".data) = '\n' :: "A".data :=
  ⟨(SourceMap.load_amended_spec "u" (fun _ => none)).1, by decide,
   (SourceMap.load_amended_spec "u" (fun _ => none)).2.2.2.1 ")]\x7dx".data "A".data
     (by decide) (by decide)⟩

/-- A small concrete sorted mappings array for the C2 witness. -/
def mappingsEx : List SourceMapEntry :=
  [{ lineNumber := 1, columnNumber := 1 }, { lineNumber := 1, columnNumber := 5 },
   { lineNumber := 2, columnNumber := 3 }, { lineNumber := 4, columnNumber := 0 }]

theorem SourceMap.findEntry_spec_witness :
    (mappingsEx.Pairwise fun a b => SourceMapEntry.compare a b ≤ 0) ∧
    (match SourceMap.findEntry mappingsEx 2 5 with
     | some e => e ∈ mappingsEx ∧ posLe e 2 5 ∧
         ∀ e' ∈ mappingsEx, posLe e' 2 5 → lexLeEntry e' e
     | none => ∀ e' ∈ mappingsEx, ¬ posLe e' 2 5) :=
  ⟨by decide, SourceMap.findEntry_spec mappingsEx 2 5 (by decide)⟩

/-! ## Path / URL resolution (src/browser/browserDelegate.ts,
`BrowserSourcePathResolver`, claims C5, C6)

Strings are modelled as `List Char`.  Node's `path` module (posix) and
the WHATWG `URL` class are external collaborators, modelled segment-wise
below; percent-encoding and Windows separators are outside the model. -/

/-- `l` starts with `pat` (JavaScript `String.prototype.startsWith`). -/
def listStartsWith : List Char → List Char → Bool
  | _, [] => true
  | [], _ :: _ => false
  | c :: cs, p :: ps => c = p && listStartsWith cs ps

/-- `l` ends with `suf`. -/
def listEndsWith (l suf : List Char) : Bool := listStartsWith l.reverse suf.reverse

/-- Split on `'/'`; always returns at least one (possibly empty) part. -/
def splitOnSlash : List Char → List (List Char)
  | [] => [[]]
  | c :: rest =>
    if c = '/' then [] :: splitOnSlash rest
    else
      match splitOnSlash rest with
      | [] => [[c]]
      | s :: ss => (c :: s) :: ss

/-- Interleave `'/'` between parts (inverse of `splitOnSlash`). -/
def joinSlash : List (List Char) → List Char
  | [] => []
  | [s] => s
  | s :: ss => s ++ '/' :: joinSlash ss

/-- The segment-resolution loop of `path.normalize`: drop empty and `.`
segments, let `..` pop (absolute paths discard `..` at the root, relative
paths keep it). -/
def normStack (abs : Bool) : List (List Char) → List (List Char) → List (List Char)
  | [], stack => stack.reverse
  | s :: rest, stack =>
    if s = [] ∨ s = ['.'] then normStack abs rest stack
    else if s = ['.', '.'] then
      match stack with
      | t :: ts =>
        if t = ['.', '.'] then normStack abs rest (s :: t :: ts)
        else normStack abs rest ts
      | [] => if abs then normStack abs rest [] else normStack abs rest [s]
    else normStack abs rest (s :: stack)

/-- `path.normalize` (posix).  The model drops a trailing slash (Node
keeps it); the resolver never feeds it a path with one on the branches
verified here. -/
def pathNormalize (p : List Char) : List Char :=
  let abs := p.head? == some '/'
  let segs := normStack abs (splitOnSlash p) []
  if abs then '/' :: joinSlash segs
  else if segs = [] then ['.'] else joinSlash segs

/-- Drop the common leading segments of two resolved paths. -/
def dropCommon : List (List Char) → List (List Char) → List (List Char) × List (List Char)
  | a :: as, b :: bs =>
    if a = b then dropCommon as bs else (a :: as, b :: bs)
  | as, bs => (as, bs)

/-- `path.relative` (posix) for two absolute paths: `..` for every
remaining segment of `f`, then the remaining segments of `t`. -/
def pathRelative (f t : List Char) : List Char :=
  let p := dropCommon (normStack true (splitOnSlash f) []) (normStack true (splitOnSlash t) [])
  joinSlash (p.1.map (fun _ => ['.', '.']) ++ p.2)

/-- `path.join` (posix) of two parts. -/
def pathJoin (a b : List Char) : List Char := pathNormalize (a ++ '/' :: b)

/-- A parsed URL as used by the resolver: scheme, host (with any port)
and pathname. -/
structure JsUrl where
  scheme : List Char
  host : List Char
  pathname : List Char
deriving Repr, DecidableEq, Inhabited

/-- Characters before the first occurrence of `stop`, and the rest. -/
def takeUntil (stop : Char) : List Char → List Char × List Char
  | [] => ([], [])
  | c :: cs =>
    if c = stop then ([], c :: cs)
    else
      let p := takeUntil stop cs
      (c :: p.1, p.2)

/-- `new URL(url)` on an absolute `scheme://host/path` string;
`none` models the thrown `TypeError` on anything else. -/
def urlParse (url : List Char) : Option JsUrl :=
  let s := takeUntil ':' url
  match s.2 with
  | ':' :: '/' :: '/' :: rest =>
    if s.1 = [] then none
    else
      let h := takeUntil '/' rest
      some { scheme := s.1, host := h.1, pathname := if h.2 = [] then ['/'] else h.2 }
  | _ => none

/-- `URL.prototype.origin` in the model: `scheme://host`. -/
def JsUrl.origin (u : JsUrl) : List Char := u.scheme ++ ':' :: '/' :: '/' :: u.host

/-- `new URL(relative, baseUrl).toString()` as used by
`absolutePathToUrl`: the constructor pinned the base's pathname to `/`,
so the reference's path replaces it after dot-segment removal. -/
def urlResolve (relative : List Char) (base : JsUrl) : List Char :=
  base.scheme ++ ':' :: '/' :: '/' :: base.host ++ pathNormalize ('/' :: relative)

/-- Modelled from the spec: `utils.fileUrlToAbsolutePath` (defined in
`src/utils/urlUtils.ts`, which is not part of this snapshot); the spec
says `url_to_absolute_path` "strips `file://`". -/
def fileUrlToAbsolutePath (url : List Char) : Option (List Char) :=
  if listStartsWith url "file://".data then some (url.drop 7) else none

/-- Modelled from the spec: `utils.absolutePathToFileUrl` — paths not
under webRoot map to a `file://` URL. -/
def absolutePathToFileUrl (p : List Char) : Option (List Char) :=
  some ("file://".data ++ p)

/-- `BrowserSourcePathResolver._rules`, built only when a webRoot is
configured.  In each pair, `.1` is the url pattern and `.2` the path
replacement; `substitute` inlines the webRoot into `{webRoot}/…`. -/
def resolverRulesOf : Option (List Char) → List (List Char × List Char)
  | none => []
  | some basePath =>
    [("webpack:///./~/".data, basePath ++ "/node_modules/".data),
     ("webpack:///./".data, basePath ++ "/".data),
     ("webpack:///src/".data, basePath ++ "/".data),
     ("webpack:///".data, "/".data)]

/-- `BrowserSourcePathResolver.absolutePathToUrl`.  `basePath` is the
normalized webRoot stored by the constructor. -/
def absolutePathToUrl (basePath : Option (List Char)) (baseUrl : Option JsUrl)
    (absolutePath : List Char) : Option (List Char) :=
  let ap := pathNormalize absolutePath
  match baseUrl, basePath with
  | some bu, some bp =>
    if listStartsWith ap bp then some (urlResolve (pathRelative bp ap) bu)
    else absolutePathToFileUrl ap
  | _, _ => absolutePathToFileUrl ap

/-- `BrowserSourcePathResolver.urlToAbsolutePath`.  Note the source's
rule branch: `rule.pathPrefix + url.substring(rule.pathPrefix.length)` —
the substring offset is the length of the *path* replacement, not of the
url pattern. -/
def urlToAbsolutePath (basePath : Option (List Char)) (baseUrl : Option JsUrl)
    (url : List Char) : List Char :=
  let fa := (fileUrlToAbsolutePath url).getD []
  if fa ≠ [] then fa
  else
    match (resolverRulesOf basePath).find? (fun rule => listStartsWith url rule.1) with
    | some rule => rule.2 ++ url.drop rule.2.length
    | none =>
      match basePath, baseUrl with
      | some bp, some bu =>
        match urlParse url with
        | none => []
        | some u =>
          if u.origin ≠ bu.origin then []
          else
            let pathname := pathNormalize u.pathname
            let basepath0 := pathNormalize bu.pathname
            let basepath := if ¬ listEndsWith basepath0 ['/'] then basepath0 ++ ['/']
              else basepath0
            if ¬ listStartsWith pathname basepath then []
            else
              let relative := if basepath = pathname then []
                else pathNormalize (pathRelative basepath pathname)
              let relative2 := if relative = [] ∨ relative = ['/'] then "index.html".data
                else relative
              pathJoin bp relative2
      | _, _ => []

/-- C6: the url-pattern rules are applied with the wrong substring
offset.  For `webRoot = "/web"` and the url `webpack:///./~/foo.js`, the
rule `webpack:///./~/` (15 characters) matches, but the code appends
`url.substring(rule.pathPrefix.length)` — 18 characters, the length of
`/web/node_modules/` — so three characters of the file name are lost and
the result is `/web/node_modules/.js` instead of the claimed
`/web/node_modules/foo.js`.  The same-origin `index.html` clause of the
claim does hold (third conjunct). -/
theorem urlToAbsolutePath_rule_bug :
    urlToAbsolutePath (some "/web".data) none "webpack:///./~/foo.js".data
      = "/web/node_modules/.js".data ∧
    "/web/node_modules/.js".data ≠ "/web/node_modules/foo.js".data ∧
    urlToAbsolutePath (some "/web".data)
        (some { scheme := "http".data, host := "h".data, pathname := ['/'] })
        "http://h/".data = "/web/index.html".data := by
  decide

/-! ### Claim C5: round trip for paths under webRoot -/

/-- A well-formed path segment: non-empty, no separator, not a dot
segment. -/
def validSeg (s : List Char) : Prop :=
  s ≠ [] ∧ '/' ∉ s ∧ s ≠ ['.'] ∧ s ≠ ['.', '.']

instance (s : List Char) : Decidable (validSeg s) := by
  unfold validSeg; exact inferInstance

/-- The absolute path with the given segments. -/
def pathOfSegs (segs : List (List Char)) : List Char := '/' :: joinSlash segs

theorem listStartsWith_append (l x : List Char) : listStartsWith (l ++ x) l = true := by
  induction l with
  | nil => cases x <;> rfl
  | cons c cs ih => simp [listStartsWith, ih]

theorem startsWith_colon_eq (s1 : List Char) :
    ∀ (s2 r1 r2 : List Char), ':' ∉ s1 → ':' ∉ s2 →
      listStartsWith (s1 ++ ':' :: r1) (s2 ++ ':' :: r2) = true → s1 = s2 := by
  induction s1 with
  | nil =>
    intro s2 r1 r2 _ h2 h
    cases s2 with
    | nil => rfl
    | cons b bs =>
      exfalso
      simp only [List.nil_append, List.cons_append, listStartsWith, Bool.and_eq_true,
        decide_eq_true_eq] at h
      exact (h2 (by rw [h.1]; exact List.mem_cons_self _ _)).elim
  | cons a as ih =>
    intro s2 r1 r2 h1 h2 h
    cases s2 with
    | nil =>
      exfalso
      simp only [List.cons_append, List.nil_append, listStartsWith, Bool.and_eq_true,
        decide_eq_true_eq] at h
      exact (h1 (by rw [← h.1]; exact List.mem_cons_self _ _)).elim
    | cons b bs =>
      simp only [List.cons_append, listStartsWith, Bool.and_eq_true, decide_eq_true_eq] at h
      have := ih bs r1 r2 (fun hm => h1 (List.mem_cons_of_mem a hm))
        (fun hm => h2 (List.mem_cons_of_mem b hm)) h.2
      rw [h.1, this]

theorem seg_split (s : List Char) (b : List Char) (h : '/' ∉ s) :
    splitOnSlash (s ++ '/' :: b) = s :: splitOnSlash b := by
  induction s with
  | nil => simp [splitOnSlash]
  | cons c cs ih =>
    have hc : c ≠ '/' := fun hc => h (hc ▸ List.mem_cons_self c cs)
    simp only [List.cons_append, splitOnSlash, if_neg hc, List.append_eq]
    rw [ih (fun hm => h (List.mem_cons_of_mem c hm))]

theorem seg_split_end (s : List Char) (h : '/' ∉ s) : splitOnSlash s = [s] := by
  induction s with
  | nil => rfl
  | cons c cs ih =>
    have hc : c ≠ '/' := fun hc => h (hc ▸ List.mem_cons_self c cs)
    simp only [splitOnSlash, if_neg hc, List.append_eq]
    rw [ih (fun hm => h (List.mem_cons_of_mem c hm))]

theorem splitOnSlash_join (S : List (List Char)) (hS : ∀ s ∈ S, '/' ∉ s) (hne : S ≠ []) :
    splitOnSlash (joinSlash S) = S := by
  induction S with
  | nil => exact absurd rfl hne
  | cons s ss ih =>
    cases ss with
    | nil => exact seg_split_end s (hS s (List.mem_cons_self s []))
    | cons t ts =>
      show splitOnSlash (s ++ '/' :: joinSlash (t :: ts)) = _
      rw [seg_split s _ (hS s (List.mem_cons_self _ _))]
      rw [ih (fun x hx => hS x (List.mem_cons_of_mem s hx)) (by simp)]

theorem splitOnSlash_join_append (S : List (List Char)) (b : List Char)
    (hS : ∀ s ∈ S, '/' ∉ s) (hne : S ≠ []) :
    splitOnSlash (joinSlash S ++ '/' :: b) = S ++ splitOnSlash b := by
  induction S with
  | nil => exact absurd rfl hne
  | cons s ss ih =>
    cases ss with
    | nil =>
      show splitOnSlash (s ++ '/' :: b) = _
      rw [seg_split s b (hS s (List.mem_cons_self s []))]
      rfl
    | cons t ts =>
      show splitOnSlash ((s ++ '/' :: joinSlash (t :: ts)) ++ '/' :: b) = _
      rw [List.append_assoc, List.cons_append]
      rw [seg_split s _ (hS s (List.mem_cons_self _ _))]
      rw [ih (fun x hx => hS x (List.mem_cons_of_mem s hx)) (by simp)]
      simp

theorem normStack_valid (ab : Bool) (S : List (List Char)) (hS : ∀ s ∈ S, validSeg s) :
    ∀ acc, normStack ab S acc = acc.reverse ++ S := by
  induction S with
  | nil => intro acc; simp [normStack]
  | cons s ss ih =>
    intro acc
    obtain ⟨h1, _h2, h3, h4⟩ := hS s (List.mem_cons_self s ss)
    unfold normStack
    rw [if_neg (by simp [h1, h3]), if_neg h4]
    rw [ih (fun x hx => hS x (List.mem_cons_of_mem s hx)) (s :: acc)]
    simp

theorem joinSlash_head (S : List (List Char)) (hS : ∀ s ∈ S, validSeg s) (hne : S ≠ []) :
    ∃ c cs, joinSlash S = c :: cs ∧ c ≠ '/' := by
  cases S with
  | nil => exact absurd rfl hne
  | cons s ss =>
    obtain ⟨h1, h2, _, _⟩ := hS s (List.mem_cons_self s ss)
    cases s with
    | nil => exact absurd rfl h1
    | cons c cs =>
      have hc : c ≠ '/' := fun hcc => h2 (by rw [hcc]; exact List.mem_cons_self _ _)
      cases ss with
      | nil => exact ⟨c, cs, rfl, hc⟩
      | cons t ts => exact ⟨c, cs ++ '/' :: joinSlash (t :: ts), rfl, hc⟩

theorem joinSlash_ne_nil (S : List (List Char)) (hS : ∀ s ∈ S, validSeg s) (hne : S ≠ []) :
    joinSlash S ≠ [] := by
  obtain ⟨c, cs, heq, _⟩ := joinSlash_head S hS hne
  rw [heq]
  simp

theorem joinSlash_ne_slash (S : List (List Char)) (hS : ∀ s ∈ S, validSeg s) (hne : S ≠ []) :
    joinSlash S ≠ ['/'] := by
  obtain ⟨c, cs, heq, hc⟩ := joinSlash_head S hS hne
  rw [heq]
  intro h
  rw [List.cons.injEq] at h
  exact hc h.1

theorem validSeg_no_slash (S : List (List Char)) (hS : ∀ s ∈ S, validSeg s) :
    ∀ s ∈ S, '/' ∉ s := fun s hs => (hS s hs).2.1

theorem pathNormalize_abs (S : List (List Char)) (hS : ∀ s ∈ S, validSeg s) :
    pathNormalize ('/' :: joinSlash S) = '/' :: joinSlash S := by
  show '/' :: joinSlash (normStack true (splitOnSlash ('/' :: joinSlash S)) []) =
    '/' :: joinSlash S
  cases S with
  | nil => rfl
  | cons t ts =>
    rw [show splitOnSlash ('/' :: joinSlash (t :: ts)) =
        [] :: splitOnSlash (joinSlash (t :: ts)) from by simp [splitOnSlash]]
    rw [splitOnSlash_join (t :: ts) (validSeg_no_slash _ hS) (by simp)]
    show '/' :: joinSlash (normStack true (t :: ts) []) = _
    rw [normStack_valid true (t :: ts) hS []]
    rfl

theorem pathNormalize_rel (S : List (List Char)) (hS : ∀ s ∈ S, validSeg s) (hne : S ≠ []) :
    pathNormalize (joinSlash S) = joinSlash S := by
  obtain ⟨c, cs, heq, hc⟩ := joinSlash_head S hS hne
  unfold pathNormalize
  rw [heq]
  simp only [List.head?_cons]
  rw [show ((some c == some '/') : Bool) = false from by
    simp [hc]]
  simp only [Bool.false_eq_true, if_false]
  rw [← heq]
  rw [splitOnSlash_join S (validSeg_no_slash S hS) hne]
  rw [normStack_valid false S hS []]
  simp only [List.reverse_nil, List.nil_append]
  rw [if_neg hne]

theorem dropCommon_append (B R : List (List Char)) : dropCommon B (B ++ R) = ([], R) := by
  induction B with
  | nil =>
    cases R with
    | nil => rfl
    | cons r rs => rfl
  | cons b bs ih =>
    show dropCommon (b :: bs) (b :: (bs ++ R)) = ([], R)
    unfold dropCommon
    rw [if_pos rfl]
    exact ih

theorem takeUntil_append (stop : Char) (s rest : List Char) (h : stop ∉ s) :
    takeUntil stop (s ++ stop :: rest) = (s, stop :: rest) := by
  induction s with
  | nil => simp [takeUntil]
  | cons c cs ih =>
    have hc : c ≠ stop := fun hcc => h (hcc ▸ List.mem_cons_self c cs)
    simp only [List.cons_append, takeUntil, if_neg hc, List.append_eq]
    rw [ih (fun hm => h (List.mem_cons_of_mem c hm))]

theorem urlParse_build (scheme host p : List Char) (hs1 : ':' ∉ scheme)
    (hs0 : scheme ≠ []) (hh : '/' ∉ host) :
    urlParse (scheme ++ ':' :: '/' :: '/' :: (host ++ '/' :: p)) =
      some { scheme := scheme, host := host, pathname := '/' :: p } := by
  unfold urlParse
  rw [takeUntil_append ':' scheme ('/' :: '/' :: (host ++ '/' :: p)) hs1]
  simp only
  rw [if_neg hs0]
  rw [takeUntil_append '/' host p hh]
  simp

theorem rule_no_match (bp scheme rest : List Char) (h1 : ':' ∉ scheme)
    (h2 : scheme ≠ "webpack".data) :
    (resolverRulesOf (some bp)).find?
      (fun rule => listStartsWith (scheme ++ ':' :: rest) rule.1) = none := by
  unfold resolverRulesOf
  rw [List.find?_cons_of_neg, List.find?_cons_of_neg, List.find?_cons_of_neg,
    List.find?_cons_of_neg, List.find?_nil]
  · exact fun h => h2 (startsWith_colon_eq scheme "webpack".data rest "///".data h1
      (by decide) h)
  · exact fun h => h2 (startsWith_colon_eq scheme "webpack".data rest "///src/".data h1
      (by decide) h)
  · exact fun h => h2 (startsWith_colon_eq scheme "webpack".data rest "///./".data h1
      (by decide) h)
  · exact fun h => h2 (startsWith_colon_eq scheme "webpack".data rest "///./~/".data h1
      (by decide) h)

theorem fileUrl_no_match (scheme rest : List Char) (h1 : ':' ∉ scheme)
    (h2 : scheme ≠ "file".data) :
    fileUrlToAbsolutePath (scheme ++ ':' :: rest) = none := by
  unfold fileUrlToAbsolutePath
  rw [if_neg]
  intro h
  exact h2 (startsWith_colon_eq scheme "file".data rest "//".data h1 (by decide) h)

theorem listStartsWith_cons_same (c : Char) (x y : List Char) :
    listStartsWith (c :: x) (c :: y) = listStartsWith x y := by
  simp [listStartsWith]

theorem joinSlash_append (B R : List (List Char)) (hBne : B ≠ []) (hRne : R ≠ []) :
    joinSlash (B ++ R) = joinSlash B ++ '/' :: joinSlash R := by
  induction B with
  | nil => exact absurd rfl hBne
  | cons b bs ih =>
    cases bs with
    | nil =>
      cases R with
      | nil => exact absurd rfl hRne
      | cons r rs => rfl
    | cons b2 bs2 =>
      show b ++ '/' :: joinSlash ((b2 :: bs2) ++ R) = _
      rw [ih (by simp)]
      show _ = (b ++ '/' :: joinSlash (b2 :: bs2)) ++ '/' :: joinSlash R
      rw [List.append_assoc]
      rfl

theorem listStartsWith_nil (l : List Char) : listStartsWith l [] = true := by
  cases l <;> rfl

theorem startsWith_pathOfSegs (B R : List (List Char)) (hRne : R ≠ []) :
    listStartsWith (pathOfSegs (B ++ R)) (pathOfSegs B) = true := by
  unfold pathOfSegs
  rw [listStartsWith_cons_same]
  cases B with
  | nil =>
    rw [List.nil_append]
    exact listStartsWith_nil _
  | cons b bs =>
    rw [joinSlash_append (b :: bs) R (by simp) hRne]
    exact listStartsWith_append _ _

theorem pathNormalize_pathOfSegs (S : List (List Char)) (hS : ∀ s ∈ S, validSeg s) :
    pathNormalize (pathOfSegs S) = pathOfSegs S := pathNormalize_abs S hS

theorem normAbsSegs (S : List (List Char)) (hS : ∀ s ∈ S, validSeg s) :
    normStack true (splitOnSlash (pathOfSegs S)) [] = S := by
  cases S with
  | nil => rfl
  | cons t ts =>
    show normStack true (splitOnSlash ('/' :: joinSlash (t :: ts))) [] = _
    rw [show splitOnSlash ('/' :: joinSlash (t :: ts)) =
        [] :: splitOnSlash (joinSlash (t :: ts)) from by simp [splitOnSlash]]
    rw [splitOnSlash_join (t :: ts) (validSeg_no_slash _ hS) (by simp)]
    show normStack true (t :: ts) [] = t :: ts
    rw [normStack_valid true (t :: ts) hS []]
    rfl

theorem pathRelative_segs (B R : List (List Char)) (hB : ∀ s ∈ B, validSeg s)
    (hBR : ∀ s ∈ B ++ R, validSeg s) :
    pathRelative (pathOfSegs B) (pathOfSegs (B ++ R)) = joinSlash R := by
  unfold pathRelative
  rw [normAbsSegs B hB, normAbsSegs (B ++ R) hBR]
  rw [dropCommon_append B R]
  rfl

theorem pathRelative_root (R : List (List Char)) (hR : ∀ s ∈ R, validSeg s) :
    pathRelative ['/'] ('/' :: joinSlash R) = joinSlash R := by
  unfold pathRelative
  rw [show normStack true (splitOnSlash ['/']) [] = ([] : List (List Char)) from rfl]
  rw [show ('/' :: joinSlash R) = pathOfSegs R from rfl]
  rw [normAbsSegs R hR]
  show joinSlash ([] ++ R) = joinSlash R
  rw [List.nil_append]

theorem pathJoin_segs (B R : List (List Char)) (hB : ∀ s ∈ B, validSeg s)
    (hR : ∀ s ∈ R, validSeg s) (hRne : R ≠ []) :
    pathJoin (pathOfSegs B) (joinSlash R) = pathOfSegs (B ++ R) := by
  unfold pathJoin pathOfSegs
  rw [List.cons_append]
  cases B with
  | nil =>
    show pathNormalize ('/' :: ([] ++ '/' :: joinSlash R)) = _
    rw [List.nil_append]
    show '/' :: joinSlash (normStack true (splitOnSlash ('/' :: '/' :: joinSlash R)) []) = _
    rw [show splitOnSlash ('/' :: '/' :: joinSlash R) =
        [] :: [] :: splitOnSlash (joinSlash R) from by simp [splitOnSlash]]
    rw [splitOnSlash_join R (validSeg_no_slash R hR) hRne]
    show '/' :: joinSlash (normStack true R []) = _
    rw [normStack_valid true R hR []]
    rfl
  | cons b bs =>
    show '/' :: joinSlash (normStack true
      (splitOnSlash ('/' :: (joinSlash (b :: bs) ++ '/' :: joinSlash R))) []) = _
    rw [show splitOnSlash ('/' :: (joinSlash (b :: bs) ++ '/' :: joinSlash R)) =
        [] :: splitOnSlash (joinSlash (b :: bs) ++ '/' :: joinSlash R) from by
      simp [splitOnSlash]]
    rw [splitOnSlash_join_append (b :: bs) (joinSlash R) (validSeg_no_slash _ hB) (by simp)]
    rw [splitOnSlash_join R (validSeg_no_slash R hR) hRne]
    show '/' :: joinSlash (normStack true ((b :: bs) ++ R) []) = _
    rw [normStack_valid true ((b :: bs) ++ R) (fun s hs =>
      (List.mem_append.mp hs).elim (hB s) (hR s)) []]
    rfl

/-- C5: for every absolute path strictly under the webRoot — written as
webRoot segments `B` plus non-empty relative segments `R` — with a
configured (non-`file:`, non-`webpack:`) base URL, `urlToAbsolutePath`
inverts `absolutePathToUrl`: the path maps to
`baseUrl + relative(webRoot, p)` and the same-origin branch recovers
`p`. -/
theorem absolutePath_url_roundTrip (bu : JsUrl) (B R : List (List Char))
    (hB : ∀ s ∈ B, validSeg s) (hR : ∀ s ∈ R, validSeg s) (hRne : R ≠ [])
    (hs0 : bu.scheme ≠ []) (hs1 : ':' ∉ bu.scheme)
    (hsf : bu.scheme ≠ "file".data) (hsw : bu.scheme ≠ "webpack".data)
    (hh : '/' ∉ bu.host) (hbp : bu.pathname = ['/']) :
    absolutePathToUrl (some (pathOfSegs B)) (some bu) (pathOfSegs (B ++ R)) =
      some (bu.scheme ++ ':' :: '/' :: '/' :: (bu.host ++ '/' :: joinSlash R)) ∧
    urlToAbsolutePath (some (pathOfSegs B)) (some bu)
      (bu.scheme ++ ':' :: '/' :: '/' :: (bu.host ++ '/' :: joinSlash R)) =
      pathOfSegs (B ++ R) := by
  have hBR : ∀ s ∈ B ++ R, validSeg s := fun s hs =>
    (List.mem_append.mp hs).elim (hB s) (hR s)
  constructor
  · simp only [absolutePathToUrl]
    rw [pathNormalize_pathOfSegs (B ++ R) hBR]
    rw [if_pos (startsWith_pathOfSegs B R hRne)]
    rw [pathRelative_segs B R hB hBR]
    simp only [urlResolve]
    rw [pathNormalize_abs R hR]
    simp [List.cons_append]
  · simp only [urlToAbsolutePath]
    rw [fileUrl_no_match bu.scheme _ hs1 hsf]
    simp only [Option.getD_none]
    rw [if_neg (by simp)]
    rw [rule_no_match (pathOfSegs B) bu.scheme _ hs1 hsw]
    rw [urlParse_build bu.scheme bu.host (joinSlash R) hs1 hs0 hh]
    simp only
    rw [if_neg (fun h => h rfl)]
    rw [pathNormalize_abs R hR]
    rw [hbp]
    rw [show pathNormalize ['/'] = ['/'] from rfl]
    rw [show (if ¬ listEndsWith ['/'] ['/'] = true then ['/'] ++ ['/']
        else (['/'] : List Char)) = ['/'] from by decide]
    rw [if_neg (show ¬ ¬ listStartsWith ('/' :: joinSlash R) ['/'] = true from by
      intro h
      exact h (by rw [listStartsWith_cons_same]; exact listStartsWith_nil _))]
    rw [if_neg (show ¬ (['/'] = '/' :: joinSlash R) from by
      intro h
      have h2 := congrArg List.tail h
      simp only [List.tail_cons] at h2
      exact joinSlash_ne_nil R hR hRne h2.symm)]
    rw [pathRelative_root R hR]
    rw [pathNormalize_rel R hR hRne]
    rw [if_neg (not_or.mpr ⟨joinSlash_ne_nil R hR hRne, joinSlash_ne_slash R hR hRne⟩)]
    exact pathJoin_segs B R hB hR hRne

def buEx : JsUrl :=
  { scheme := "http".data, host := "localhost:8080".data, pathname := ['/'] }

def webRootSegsEx : List (List Char) := ["web".data]

def relSegsEx : List (List Char) := ["src1".data, "app.js".data]

theorem absolutePath_url_roundTrip_witness :
    (∀ s ∈ webRootSegsEx, validSeg s) ∧ (∀ s ∈ relSegsEx, validSeg s) ∧ relSegsEx ≠ [] ∧
    (absolutePathToUrl (some (pathOfSegs webRootSegsEx)) (some buEx)
        (pathOfSegs (webRootSegsEx ++ relSegsEx)) =
      some (buEx.scheme ++ ':' :: '/' :: '/' :: (buEx.host ++ '/' :: joinSlash relSegsEx)) ∧
     urlToAbsolutePath (some (pathOfSegs webRootSegsEx)) (some buEx)
        (buEx.scheme ++ ':' :: '/' :: '/' :: (buEx.host ++ '/' :: joinSlash relSegsEx)) =
      pathOfSegs (webRootSegsEx ++ relSegsEx)) :=
  ⟨by decide, by decide, by decide,
   absolutePath_url_roundTrip buEx webRootSegsEx relSegsEx (by decide) (by decide)
     (by decide) (by decide) (by decide) (by decide) (by decide) (by decide) rfl⟩

/-! ## Breakpoints (src/unnamed/part_002, claims C1, C4) -/

/-- A 1-based client location, as produced by `updateForSourceMap`
(the `source` field plays no role in the verified properties). -/
structure UiLocation where
  lineNumber : Int
  columnNumber : Int
deriving Repr, DecidableEq, Inhabited

/-- The sources handed to `_scriptSourceMapHandler`: absolute path (if
any) and source reference. -/
structure SourceKey where
  absolutePath : Option String
  sourceReference : Nat
deriving Repr, DecidableEq, Inhabited

/-- The `todo` gathering of `_scriptSourceMapHandler`: for each source,
the breakpoints indexed by path and by reference, each yielding the
locations `updateForSourceMap` re-set (abstracted by `update`). -/
def handlerTodo (byPath : String → List Nat) (byRef : Nat → List Nat)
    (update : Nat → List UiLocation) (sources : List SourceKey) :
    List (List UiLocation) :=
  sources.flatMap fun source =>
    ((match source.absolutePath with
      | some p => byPath p
      | none => []).map update) ++ ((byRef source.sourceReference).map update)

/-- `remainPaused: result.some(r => r.some(l => l.columnNumber <= 1 && l.lineNumber <= 1))`. -/
def scriptSourceMapHandler (byPath : String → List Nat) (byRef : Nat → List Nat)
    (update : Nat → List UiLocation) (sources : List SourceKey) : Bool :=
  (handlerTodo byPath byRef update sources).any fun r =>
    r.any fun l => decide (l.columnNumber ≤ 1) && decide (l.lineNumber ≤ 1)

/-- C4: the script-source-map handler returns `remainPaused = true` iff
some breakpoint for one of the script's authored sources (found in the
by-path or by-reference index) was re-set at a location with
`lineNumber ≤ 1` and `columnNumber ≤ 1`. -/
theorem scriptSourceMapHandler_spec (byPath : String → List Nat) (byRef : Nat → List Nat)
    (update : Nat → List UiLocation) (sources : List SourceKey) :
    scriptSourceMapHandler byPath byRef update sources = true ↔
      ∃ source ∈ sources, ∃ bp,
        ((∃ p, source.absolutePath = some p ∧ bp ∈ byPath p) ∨ bp ∈ byRef source.sourceReference) ∧
        ∃ l ∈ update bp, l.lineNumber ≤ 1 ∧ l.columnNumber ≤ 1 := by
  unfold scriptSourceMapHandler handlerTodo
  rw [List.any_eq_true]
  constructor
  · rintro ⟨r, hr, hany⟩
    rw [List.mem_flatMap] at hr
    obtain ⟨source, hsource, hr2⟩ := hr
    rw [List.mem_append] at hr2
    rw [List.any_eq_true] at hany
    obtain ⟨l, hl, hple⟩ := hany
    simp only [Bool.and_eq_true, decide_eq_true_eq] at hple
    rcases hr2 with hpath | href
    · rw [List.mem_map] at hpath
      obtain ⟨bp, hbp, rfl⟩ := hpath
      refine ⟨source, hsource, bp, Or.inl ?_, l, hl, hple.2, hple.1⟩
      cases hap : source.absolutePath with
      | none => rw [hap] at hbp; exact absurd hbp (List.not_mem_nil bp)
      | some p => rw [hap] at hbp; exact ⟨p, rfl, hbp⟩
    · rw [List.mem_map] at href
      obtain ⟨bp, hbp, rfl⟩ := href
      exact ⟨source, hsource, bp, Or.inr hbp, l, hl, hple.2, hple.1⟩
  · rintro ⟨source, hsource, bp, hbp, l, hl, h1, h2⟩
    refine ⟨update bp, ?_, ?_⟩
    · rw [List.mem_flatMap]
      refine ⟨source, hsource, ?_⟩
      rw [List.mem_append]
      rcases hbp with ⟨p, hp, hmem⟩ | hmem
      · exact Or.inl (by rw [hp]; exact List.mem_map_of_mem update hmem)
      · exact Or.inr (List.mem_map_of_mem update hmem)
    · rw [List.any_eq_true]
      exact ⟨l, hl, by simp only [Bool.and_eq_true, decide_eq_true_eq]; exact ⟨h2, h1⟩⟩

/-- The id-registration state of one `Breakpoint`:
`_resolvedBreakpoints` (a CDP-id set, insertion-ordered and
duplicate-free) and `_setUrlLocations`.  `_resolvedUiLocation` and the
DAP bookkeeping are orthogonal to the verified claim and omitted. -/
structure BpState where
  resolvedBreakpoints : List String := []
  setUrlLocations : List String := []
deriving Repr, DecidableEq, Inhabited

/-- `Set.prototype.add`. -/
def BpState.addResolved (s : BpState) (id : String) : BpState :=
  { s with resolvedBreakpoints :=
      if id ∈ s.resolvedBreakpoints then s.resolvedBreakpoints
      else s.resolvedBreakpoints ++ [id] }

/-- The joint state of all `Breakpoint`s (keyed by object identity) and
the manager's `_resolvedBreakpoints` index.  JavaScript `Map`s are
modelled by their lookup functions. -/
structure BpWorld where
  bps : Nat → BpState
  index : String → Option Nat

/-- The registration prefix of `Breakpoint.breakpointResolved`: record
the cdp id in the breakpoint's own set and in the manager's index
(`Map.set` overwrites an existing key). -/
def breakpointResolved (w : BpWorld) (k : Nat) (cdpId : String) : BpWorld :=
  { bps := fun k2 => if k2 = k then (w.bps k).addResolved cdpId else w.bps k2,
    index := fun id => if id = cdpId then some k else w.index id }

/-- `Breakpoint.remove`: first await every active setter — each pending
setter that received a CDP response runs `breakpointResolved`
synchronously before its promise settles — then delete every recorded
resolved id from the manager index while issuing
`Debugger.removeBreakpoint` for it, and clear both sets.  Returns the
new state and the ids passed to `removeBreakpoint`. -/
def Breakpoint.removeOp (w : BpWorld) (k : Nat) (pending : List String) :
    BpWorld × List String :=
  let w1 := pending.foldl (fun w id => breakpointResolved w k id) w
  let ids := (w1.bps k).resolvedBreakpoints
  (⟨fun k2 => if k2 = k then {} else w1.bps k2,
    fun id => if id ∈ ids then none else w1.index id⟩, ids)

/-- The cleanup phase of `BreakpointManager.setBreakpoints` with an empty
breakpoints list: every previous breakpoint of the source is removed
(`await Promise.all(previous.map(b => b.remove()))`, here sequentialized;
the removals touch disjoint per-breakpoint state).  Each previous
breakpoint carries the cdp ids its still-active setters are about to
resolve. -/
def setBreakpointsEmpty (w : BpWorld) (previous : List (Nat × List String)) :
    BpWorld × List String :=
  previous.foldl
    (fun acc e =>
      let r := Breakpoint.removeOp acc.1 e.1 e.2
      (r.1, acc.2 ++ r.2)) (w, [])

/-- The manager-index invariant: every index entry points to a breakpoint
that has recorded that id (spec §8 invariant 1). -/
def BpIndexInv (w : BpWorld) : Prop :=
  ∀ id k, w.index id = some k → id ∈ (w.bps k).resolvedBreakpoints

theorem addResolved_mem (s : BpState) (id id2 : String) :
    id2 ∈ (s.addResolved id).resolvedBreakpoints ↔
      id2 ∈ s.resolvedBreakpoints ∨ id2 = id := by
  unfold BpState.addResolved
  split_ifs with h
  · simp only
    constructor
    · exact Or.inl
    · rintro (h2 | rfl)
      · exact h2
      · exact h
  · simp [List.mem_append]

theorem joinSetters_mem (pending : List String) :
    ∀ (w : BpWorld) (k : Nat) (id : String),
      (id ∈ (w.bps k).resolvedBreakpoints ∨ id ∈ pending) →
      id ∈ (((pending.foldl (fun w id => breakpointResolved w k id) w)).bps k).resolvedBreakpoints := by
  induction pending with
  | nil =>
    intro w k id h
    rcases h with h | h
    · exact h
    · exact absurd h (List.not_mem_nil id)
  | cons p ps ih =>
    intro w k id h
    simp only [List.foldl_cons]
    apply ih (breakpointResolved w k p) k id
    have hstep : ∀ id2, id2 ∈ (w.bps k).resolvedBreakpoints ∨ id2 = p →
        id2 ∈ ((breakpointResolved w k p).bps k).resolvedBreakpoints := by
      intro id2 h2
      have heq : (breakpointResolved w k p).bps k = (w.bps k).addResolved p := by
        simp [breakpointResolved]
      rw [heq, addResolved_mem]
      exact h2
    rcases h with h | h
    · exact Or.inl (hstep id (Or.inl h))
    · rcases List.mem_cons.mp h with rfl | h2
      · exact Or.inl (hstep id (Or.inr rfl))
      · exact Or.inr h2

theorem breakpointResolved_inv (w : BpWorld) (k : Nat) (cdpId : String)
    (hinv : BpIndexInv w) : BpIndexInv (breakpointResolved w k cdpId) := by
  intro id k2 h
  unfold breakpointResolved at h ⊢
  simp only at h ⊢
  by_cases hid : id = cdpId
  · rw [if_pos hid] at h
    have hk : k = k2 := by injection h
    subst hk
    rw [if_pos rfl, addResolved_mem]
    exact Or.inr hid
  · rw [if_neg hid] at h
    have := hinv id k2 h
    by_cases hk : k2 = k
    · subst hk
      rw [if_pos rfl, addResolved_mem]
      exact Or.inl this
    · rw [if_neg hk]
      exact this

theorem joinSetters_inv (pending : List String) :
    ∀ (w : BpWorld) (k : Nat), BpIndexInv w →
      BpIndexInv (pending.foldl (fun w id => breakpointResolved w k id) w) := by
  induction pending with
  | nil => intro w k h; exact h
  | cons p ps ih =>
    intro w k h
    simp only [List.foldl_cons]
    exact ih _ k (breakpointResolved_inv w k p h)

theorem joinSetters_other (pending : List String) :
    ∀ (w : BpWorld) (k k2 : Nat), k2 ≠ k →
      (pending.foldl (fun w id => breakpointResolved w k id) w).bps k2 = w.bps k2 := by
  induction pending with
  | nil => intro w k k2 _; rfl
  | cons p ps ih =>
    intro w k k2 h
    simp only [List.foldl_cons]
    rw [ih _ k k2 h]
    unfold breakpointResolved
    simp only [if_neg h]

theorem joinSetters_index (pending : List String) :
    ∀ (w : BpWorld) (k : Nat) (id : String) (k2 : Nat),
      (pending.foldl (fun w id => breakpointResolved w k id) w).index id = some k2 →
      k2 = k ∨ w.index id = some k2 := by
  induction pending with
  | nil => intro w k id k2 h; exact Or.inr h
  | cons p ps ih =>
    intro w k id k2 h
    simp only [List.foldl_cons] at h
    rcases ih _ k id k2 h with h2 | h2
    · exact Or.inl h2
    · unfold breakpointResolved at h2
      simp only at h2
      by_cases hid : id = p
      · rw [if_pos hid] at h2
        exact Or.inl (by injection h2 with h3; exact h3.symm)
      · rw [if_neg hid] at h2
        exact Or.inr h2

theorem removeOp_clears (w : BpWorld) (k : Nat) (pending : List String) :
    (Breakpoint.removeOp w k pending).1.bps k = {} := by
  unfold Breakpoint.removeOp
  simp

theorem removeOp_no_index (w : BpWorld) (k : Nat) (pending : List String)
    (hinv : BpIndexInv w) : ∀ id, (Breakpoint.removeOp w k pending).1.index id ≠ some k := by
  intro id
  unfold Breakpoint.removeOp
  simp only
  split_ifs with hmem
  · exact fun h => Option.noConfusion h
  · intro h
    have hinv1 := joinSetters_inv pending w k hinv
    exact hmem (hinv1 id k h)

theorem removeOp_inv (w : BpWorld) (k : Nat) (pending : List String)
    (hinv : BpIndexInv w) : BpIndexInv (Breakpoint.removeOp w k pending).1 := by
  intro id k2 h
  unfold Breakpoint.removeOp at h ⊢
  simp only at h ⊢
  split_ifs at h with hmem
  have hinv1 := joinSetters_inv pending w k hinv
  have hres := hinv1 id k2 h
  by_cases hk : k2 = k
  · subst hk
    exact absurd hres hmem
  · rw [if_neg hk]
    exact hres

theorem removeOp_cmds (w : BpWorld) (k : Nat) (pending : List String) :
    ∀ id, (id ∈ (w.bps k).resolvedBreakpoints ∨ id ∈ pending) →
      id ∈ (Breakpoint.removeOp w k pending).2 :=
  fun id h => joinSetters_mem pending w k id h

theorem removeOp_other (w : BpWorld) (k : Nat) (pending : List String) (k2 : Nat)
    (h : k2 ≠ k) : (Breakpoint.removeOp w k pending).1.bps k2 = w.bps k2 := by
  unfold Breakpoint.removeOp
  simp only [if_neg h]
  exact joinSetters_other pending w k k2 h

theorem removeOp_pres_none (w : BpWorld) (k : Nat) (pending : List String) (k2 : Nat)
    (h : k2 ≠ k) (hprev : ∀ id, w.index id ≠ some k2) :
    ∀ id, (Breakpoint.removeOp w k pending).1.index id ≠ some k2 := by
  intro id
  unfold Breakpoint.removeOp
  simp only
  split_ifs with hmem
  · exact fun h2 => Option.noConfusion h2
  · intro h2
    rcases joinSetters_index pending w k id k2 h2 with h3 | h3
    · exact h h3
    · exact hprev id h3

theorem foldRemove_cmds_pres (previous : List (Nat × List String)) :
    ∀ (w : BpWorld) (acc : List String) (id : String), id ∈ acc →
      id ∈ (previous.foldl
        (fun acc e =>
          let r := Breakpoint.removeOp acc.1 e.1 e.2
          (r.1, acc.2 ++ r.2)) (w, acc)).2 := by
  induction previous with
  | nil => intro w acc id h; exact h
  | cons e rest ih =>
    intro w acc id h
    simp only [List.foldl_cons]
    exact ih _ _ id (List.mem_append_left _ h)

theorem foldRemove_pres (previous : List (Nat × List String)) :
    ∀ (w : BpWorld) (acc : List String) (k : Nat),
      (∀ e ∈ previous, e.1 ≠ k) → w.bps k = {} → (∀ id, w.index id ≠ some k) →
      ((previous.foldl
        (fun acc e =>
          let r := Breakpoint.removeOp acc.1 e.1 e.2
          (r.1, acc.2 ++ r.2)) (w, acc)).1.bps k = {}) ∧
      (∀ id, (previous.foldl
        (fun acc e =>
          let r := Breakpoint.removeOp acc.1 e.1 e.2
          (r.1, acc.2 ++ r.2)) (w, acc)).1.index id ≠ some k) := by
  induction previous with
  | nil => intro w acc k _ h1 h2; exact ⟨h1, h2⟩
  | cons e rest ih =>
    intro w acc k hne h1 h2
    simp only [List.foldl_cons]
    apply ih
    · intro e2 he2
      exact hne e2 (List.mem_cons_of_mem e he2)
    · rw [removeOp_other w e.1 e.2 k (Ne.symm (hne e (List.mem_cons_self e rest)))]
      exact h1
    · exact removeOp_pres_none w e.1 e.2 k (Ne.symm (hne e (List.mem_cons_self e rest))) h2

theorem setBpAux (previous : List (Nat × List String)) :
    ∀ (w : BpWorld) (acc : List String),
      (previous.map Prod.fst).Nodup → BpIndexInv w →
      ∀ e ∈ previous,
        ((previous.foldl
          (fun acc e =>
            let r := Breakpoint.removeOp acc.1 e.1 e.2
            (r.1, acc.2 ++ r.2)) (w, acc)).1.bps e.1 = {}) ∧
        (∀ id, (previous.foldl
          (fun acc e =>
            let r := Breakpoint.removeOp acc.1 e.1 e.2
            (r.1, acc.2 ++ r.2)) (w, acc)).1.index id ≠ some e.1) ∧
        (∀ id, id ∈ (w.bps e.1).resolvedBreakpoints ∨ id ∈ e.2 →
          id ∈ (previous.foldl
            (fun acc e =>
              let r := Breakpoint.removeOp acc.1 e.1 e.2
              (r.1, acc.2 ++ r.2)) (w, acc)).2) := by
  induction previous with
  | nil => intro w acc _ _ e he; exact absurd he (List.not_mem_nil e)
  | cons e0 rest ih =>
    intro w acc hnodup hinv e he
    rw [List.map_cons, List.nodup_cons] at hnodup
    simp only [List.foldl_cons]
    rcases List.mem_cons.mp he with rfl | he2
    · have hkeys : ∀ e2 ∈ rest, e2.1 ≠ e.1 := by
        intro e2 he2 hk
        exact hnodup.1 (hk ▸ List.mem_map_of_mem Prod.fst he2)
      have hpres := foldRemove_pres rest (Breakpoint.removeOp w e.1 e.2).1
        (acc ++ (Breakpoint.removeOp w e.1 e.2).2) e.1 hkeys
        (removeOp_clears w e.1 e.2) (removeOp_no_index w e.1 e.2 hinv)
      refine ⟨hpres.1, hpres.2, ?_⟩
      intro id hid
      exact foldRemove_cmds_pres rest _ _ id
        (List.mem_append_right acc (removeOp_cmds w e.1 e.2 id hid))
    · have hne : e.1 ≠ e0.1 := by
        intro hk
        exact hnodup.1 (hk ▸ List.mem_map_of_mem Prod.fst he2)
      have hrec := ih (Breakpoint.removeOp w e0.1 e0.2).1
        (acc ++ (Breakpoint.removeOp w e0.1 e0.2).2) hnodup.2
        (removeOp_inv w e0.1 e0.2 hinv) e he2
      refine ⟨hrec.1, hrec.2.1, ?_⟩
      intro id hid
      apply hrec.2.2 id
      rcases hid with hid | hid
      · left
        rw [removeOp_other w e0.1 e0.2 e.1 hne]
        exact hid
      · exact Or.inr hid

/-- C1: after `setBreakpoints(source, [])`, no runtime breakpoint id
remains assigned to any previous `Breakpoint` of that source: each
previous breakpoint's `remove()` awaits its active setters, issues
`Debugger.removeBreakpoint` for every recorded resolved id (including
ids registered by the in-flight setters), and clears both its own
resolved-id set / url-location set and the manager's
`_resolvedBreakpoints` entries for those ids.  `hinv` is spec §8
invariant 1 relating the two; `hnodup` says the previous list holds
distinct breakpoint objects. -/
theorem setBreakpointsEmpty_clears (w : BpWorld) (previous : List (Nat × List String))
    (hnodup : (previous.map Prod.fst).Nodup) (hinv : BpIndexInv w) :
    ∀ e ∈ previous,
      ((setBreakpointsEmpty w previous).1.bps e.1).resolvedBreakpoints = [] ∧
      ((setBreakpointsEmpty w previous).1.bps e.1).setUrlLocations = [] ∧
      (∀ id, (setBreakpointsEmpty w previous).1.index id ≠ some e.1) ∧
      (∀ id, id ∈ (w.bps e.1).resolvedBreakpoints ∨ id ∈ e.2 →
        id ∈ (setBreakpointsEmpty w previous).2) := by
  intro e he
  have h := setBpAux previous w [] hnodup hinv e he
  unfold setBreakpointsEmpty
  refine ⟨?_, ?_, h.2.1, h.2.2⟩
  · rw [h.1]
  · rw [h.1]

/-- Concrete world for the C1 witness: breakpoint 1 has resolved id "a",
registered in the index, with one active setter about to resolve "b". -/
def bpWorldEx : BpWorld :=
  { bps := fun k => if k = 1 then { resolvedBreakpoints := ["a"], setUrlLocations := ["5:1:u"] }
      else {},
    index := fun id => if id = "a" then some 1 else none }

theorem setBreakpointsEmpty_clears_witness :
    ((([(1, ["b"])] : List (Nat × List String)).map Prod.fst).Nodup) ∧
    ∀ e ∈ [((1 : Nat), ["b"])],
      ((setBreakpointsEmpty bpWorldEx [(1, ["b"])]).1.bps e.1).resolvedBreakpoints = [] ∧
      ((setBreakpointsEmpty bpWorldEx [(1, ["b"])]).1.bps e.1).setUrlLocations = [] ∧
      (∀ id, (setBreakpointsEmpty bpWorldEx [(1, ["b"])]).1.index id ≠ some e.1) ∧
      (∀ id, id ∈ (bpWorldEx.bps e.1).resolvedBreakpoints ∨ id ∈ e.2 →
        id ∈ (setBreakpointsEmpty bpWorldEx [(1, ["b"])]).2) :=
  ⟨by decide,
   setBreakpointsEmpty_clears bpWorldEx [(1, ["b"])] (by decide)
     (by
       intro id k h
       unfold bpWorldEx at h ⊢
       simp only at h ⊢
       by_cases hid : id = "a"
       · rw [if_pos hid] at h
         have hk : (1 : Nat) = k := by injection h
         subst hk
         simp [hid]
       · rw [if_neg hid] at h
         exact absurd h (fun h2 => Option.noConfusion h2))⟩

/-! ## StackTrace (src/unnamed/part_001, claim C8) -/

/-- A stack frame; `location` / `scopeChain` (thread-translated values)
are outside the verified properties and omitted. -/
structure StackFrame where
  id : Nat
  name : String
  isAsyncSeparator : Bool := false
deriving Repr, DecidableEq, Inhabited

/-- The mutable state of one `StackTrace`: the frames array, the
`_frameById` map (modelled by its lookup function) and the deferred
async-parent id. -/
structure StackTraceState where
  frames : List StackFrame
  frameById : Nat → Option StackFrame
  asyncId : Option Nat

def emptyTrace : StackTraceState := ⟨[], fun _ => none, none⟩

/-- `StackTrace._appendFrame`: push and register in `_frameById`. -/
def appendFrame (t : StackTraceState) (f : StackFrame) : StackTraceState :=
  { frames := t.frames ++ [f],
    frameById := fun i => if i = f.id then some f else t.frameById i,
    asyncId := t.asyncId }

/-- `StackTrace.frame(frameId)`. -/
def StackTrace.frame (t : StackTraceState) (frameId : Nat) : Option StackFrame :=
  t.frameById frameId

/-- `x || y` on strings: `''` is falsy. -/
def jsOrStr (a : Option String) (b : String) : String :=
  match a with
  | some s => if s = "" then b else s
  | none => b

/-- One link of a CDP async stack-trace chain
(`Cdp.Runtime.StackTrace`): description, call-frame function names, and
the `parentId` continuation token (set only on the last link of a
well-formed chain).  The linear `parent` chain itself is the list. -/
structure CdpStackNode where
  description : Option String
  callFrames : List String
  parentId : Option Nat
deriving Repr, DecidableEq, Inhabited

/-- `StackTrace._appendStackTrace`: walk the parent chain; per link,
drop the first call frame of an `"async function"` link, emit a
synthetic separator frame plus the link's frames (all through
`_appendFrame`, each taking `++_lastFrameId`), and latch `parentId` into
`_asyncStackTraceId`. -/
def appendStackTrace (counter : Nat) (t : StackTraceState) :
    List CdpStackNode → Nat × StackTraceState
  | [] => (counter, t)
  | node :: rest =>
    let cfs := if node.description = some "async function" ∧ node.callFrames ≠ []
      then node.callFrames.tail else node.callFrames
    let step :=
      if cfs ≠ [] then
        let tSep := appendFrame t
          { id := counter + 1, name := jsOrStr node.description "async",
            isAsyncSeparator := true }
        cfs.foldl
          (fun acc name =>
            (acc.1 + 1, appendFrame acc.2
              { id := acc.1 + 1, name := jsOrStr (some name) "<anonymous>" }))
          (counter + 1, tSep)
      else (counter, t)
    let t2 := match node.parentId with
      | some i => { step.2 with asyncId := some i }
      | none => step.2
    appendStackTrace step.1 t2 rest

/-- The direct pushes of `StackTrace.fromRuntime`: frames are pushed onto
`_frames` **without** `_appendFrame`, so they are never registered in
`_frameById`. -/
def pushRuntimeFrames (counter : Nat) (t : StackTraceState) (callFrames : List String) :
    Nat × StackTraceState :=
  callFrames.foldl
    (fun acc name =>
      let f : StackFrame := { id := acc.1 + 1, name := jsOrStr (some name) "<anonymous>" }
      (acc.1 + 1, { acc.2 with frames := acc.2.frames ++ [f] }))
    (counter, t)

/-- `StackTrace.fromRuntime`: direct pushes, then either the deferred
`parentId` or eager `_appendStackTrace` of the parent chain. -/
def StackTrace.fromRuntime (counter : Nat) (callFrames : List String)
    (parent : List CdpStackNode) (parentId : Option Nat) : Nat × StackTraceState :=
  let p := pushRuntimeFrames counter emptyTrace callFrames
  match parentId with
  | some i => (p.1, { p.2 with asyncId := some i })
  | none => appendStackTrace p.1 p.2 parent

/-- `StackTrace.fromDebugger`: like `fromRuntime`, but every frame goes
through `_appendFrame`. -/
def StackTrace.fromDebugger (counter : Nat) (callFrames : List String)
    (parent : List CdpStackNode) (parentId : Option Nat) : Nat × StackTraceState :=
  let p := callFrames.foldl
    (fun acc name =>
      (acc.1 + 1, appendFrame acc.2
        { id := acc.1 + 1, name := jsOrStr (some name) "<anonymous>" }))
    (counter, emptyTrace)
  match parentId with
  | some i => (p.1, { p.2 with asyncId := some i })
  | none => appendStackTrace p.1 p.2 parent

/-- C8 (counterexample): a frame produced by `fromRuntime` is in the
frames array but `frame(id)` does not find it — `fromRuntime` pushes its
call frames directly instead of via `_appendFrame`, so they are never
registered in `_frameById`. -/
theorem fromRuntime_unreachable_cex :
    ((StackTrace.fromRuntime 0 ["f"] [] none).2.frames.map fun f => f.id) = [1] ∧
    StackTrace.frame (StackTrace.fromRuntime 0 ["f"] [] none).2 1 = none := by
  decide

/-- Invariant of a trace under construction: frame ids strictly increase
along the array, lie in `(c0, c]` for the current counter value `c`, and
the id map is consistent with the array. -/
def TraceInv (c0 c : Nat) (t : StackTraceState) : Prop :=
  ((t.frames.map fun f => f.id).Chain' (· < ·)) ∧
  (∀ f ∈ t.frames, c0 < f.id ∧ f.id ≤ c) ∧
  (∀ i f, t.frameById i = some f → f.id = i ∧ f ∈ t.frames)

/-- `t'` extends `t`: the frames array grew by a suffix of frames all
reachable through the id map, and existing map entries survive. -/
def TraceExt (t t' : StackTraceState) : Prop :=
  (∃ new, t'.frames = t.frames ++ new ∧ ∀ f ∈ new, t'.frameById f.id = some f) ∧
  (∀ i g, t.frameById i = some g → t'.frameById i = some g)

theorem TraceExt.rfl' (t : StackTraceState) : TraceExt t t :=
  ⟨⟨[], by simp, fun f hf => absurd hf (List.not_mem_nil f)⟩, fun _ _ h => h⟩

theorem TraceExt.trans' {t1 t2 t3 : StackTraceState} (h12 : TraceExt t1 t2)
    (h23 : TraceExt t2 t3) : TraceExt t1 t3 := by
  obtain ⟨⟨n1, hf1, hr1⟩, hp1⟩ := h12
  obtain ⟨⟨n2, hf2, hr2⟩, hp2⟩ := h23
  refine ⟨⟨n1 ++ n2, ?_, ?_⟩, fun i g h => hp2 i g (hp1 i g h)⟩
  · rw [hf2, hf1, List.append_assoc]
  · intro f hf
    rcases List.mem_append.mp hf with h | h
    · exact hp2 _ _ (hr1 f h)
    · exact hr2 f h

theorem traceExt_asyncId {t : StackTraceState} (x : Option Nat) :
    TraceExt t { t with asyncId := x } :=
  ⟨⟨[], by simp, fun f hf => absurd hf (List.not_mem_nil f)⟩, fun _ _ h => h⟩

theorem traceInv_asyncId {c0 c : Nat} {t : StackTraceState} (h : TraceInv c0 c t)
    (x : Option Nat) : TraceInv c0 c { t with asyncId := x } := h

theorem appendFrame_spec (c0 c : Nat) (t : StackTraceState) (f : StackFrame)
    (hinv : TraceInv c0 c t) (hid : f.id = c + 1) (hc0 : c0 ≤ c) :
    TraceInv c0 (c + 1) (appendFrame t f) ∧ TraceExt t (appendFrame t f) := by
  obtain ⟨hchain, hbound, hmap⟩ := hinv
  have hreg : (appendFrame t f).frameById f.id = some f := by
    unfold appendFrame
    simp
  have hpres : ∀ i g, t.frameById i = some g → (appendFrame t f).frameById i = some g := by
    intro i g h
    obtain ⟨hgi, hgmem⟩ := hmap i g h
    have : i ≠ f.id := by
      intro heq
      have := (hbound g hgmem).2
      omega
    unfold appendFrame
    simp only [if_neg this]
    exact h
  refine ⟨⟨?_, ?_, ?_⟩, ⟨[f], rfl, fun g hg => ?_⟩, hpres⟩
  · show ((t.frames ++ [f]).map fun f => f.id).Chain' (· < ·)
    rw [List.map_append]
    refine List.Chain'.append hchain (by simp) ?_
    intro x hx y hy
    have hxmem := List.mem_of_getLast?_eq_some hx
    rw [List.mem_map] at hxmem
    obtain ⟨g, hgmem, rfl⟩ := hxmem
    simp only [List.map_cons, List.map_nil, List.head?_cons, Option.mem_def,
      Option.some.injEq] at hy
    have := (hbound g hgmem).2
    omega
  · intro g hg
    rcases List.mem_append.mp hg with h | h
    · have := hbound g h
      exact ⟨this.1, by omega⟩
    · rw [List.mem_singleton] at h
      subst h
      omega
  · intro i g h
    unfold appendFrame at h
    simp only at h
    by_cases hi : i = f.id
    · rw [if_pos hi] at h
      have : g = f := by injection h with h2; exact h2.symm
      subst this
      exact ⟨hi.symm ▸ rfl, List.mem_append_right _ (List.mem_singleton.mpr rfl)⟩
    · rw [if_neg hi] at h
      obtain ⟨h1, h2⟩ := hmap i g h
      exact ⟨h1, List.mem_append_left _ h2⟩
  · rw [List.mem_singleton] at hg
    subst hg
    exact hreg

theorem pushFrame_spec (c0 c : Nat) (t : StackTraceState) (f : StackFrame)
    (hinv : TraceInv c0 c t) (hid : f.id = c + 1) (hc0 : c0 ≤ c) :
    TraceInv c0 (c + 1) { t with frames := t.frames ++ [f] } := by
  obtain ⟨hchain, hbound, hmap⟩ := hinv
  refine ⟨?_, ?_, ?_⟩
  · show ((t.frames ++ [f]).map fun f => f.id).Chain' (· < ·)
    rw [List.map_append]
    refine List.Chain'.append hchain (by simp) ?_
    intro x hx y hy
    have hxmem := List.mem_of_getLast?_eq_some hx
    rw [List.mem_map] at hxmem
    obtain ⟨g, hgmem, rfl⟩ := hxmem
    simp only [List.map_cons, List.map_nil, List.head?_cons, Option.mem_def,
      Option.some.injEq] at hy
    have := (hbound g hgmem).2
    omega
  · intro g hg
    rcases List.mem_append.mp hg with h | h
    · have := hbound g h
      exact ⟨this.1, by omega⟩
    · rw [List.mem_singleton] at h
      subst h
      omega
  · intro i g h
    obtain ⟨h1, h2⟩ := hmap i g h
    exact ⟨h1, List.mem_append_left _ h2⟩

theorem foldAppend_spec : ∀ (names : List String) (c0 c : Nat) (t : StackTraceState)
    (r : Nat × StackTraceState),
    r = names.foldl
      (fun acc name =>
        (acc.1 + 1, appendFrame acc.2
          { id := acc.1 + 1, name := jsOrStr (some name) "<anonymous>" }))
      (c, t) →
    TraceInv c0 c t → c0 ≤ c →
    c ≤ r.1 ∧ TraceInv c0 r.1 r.2 ∧ TraceExt t r.2 := by
  intro names
  induction names with
  | nil =>
    intro c0 c t r hr hinv hc0
    subst hr
    exact ⟨Nat.le_refl c, hinv, TraceExt.rfl' t⟩
  | cons name rest ih =>
    intro c0 c t r hr hinv hc0
    have hstep : (rest.foldl
        (fun acc name =>
          (acc.1 + 1, appendFrame acc.2
            { id := acc.1 + 1, name := jsOrStr (some name) "<anonymous>" }))
        (c + 1, appendFrame t
          { id := c + 1, name := jsOrStr (some name) "<anonymous>" })) =
        ((name :: rest).foldl
          (fun acc name =>
            (acc.1 + 1, appendFrame acc.2
              { id := acc.1 + 1, name := jsOrStr (some name) "<anonymous>" }))
          (c, t)) := rfl
    rw [← hstep] at hr
    obtain ⟨hinv1, hext1⟩ := appendFrame_spec c0 c t
      { id := c + 1, name := jsOrStr (some name) "<anonymous>" } hinv rfl hc0
    obtain ⟨hle, hinv2, hext2⟩ := ih c0 (c + 1)
      (appendFrame t { id := c + 1, name := jsOrStr (some name) "<anonymous>" })
      r hr hinv1 (by omega)
    exact ⟨by omega, hinv2, TraceExt.trans' hext1 hext2⟩

theorem pushRuntimeFrames_spec : ∀ (names : List String) (c0 c : Nat)
    (t : StackTraceState) (r : Nat × StackTraceState),
    r = pushRuntimeFrames c t names →
    TraceInv c0 c t → c0 ≤ c →
    c ≤ r.1 ∧ TraceInv c0 r.1 r.2 ∧ r.2.frameById = t.frameById ∧
    r.2.asyncId = t.asyncId ∧ ∃ new, r.2.frames = t.frames ++ new := by
  intro names
  induction names with
  | nil =>
    intro c0 c t r hr hinv hc0
    subst hr
    exact ⟨Nat.le_refl c, hinv, rfl, rfl, [], (List.append_nil t.frames).symm⟩
  | cons name rest ih =>
    intro c0 c t r hr hinv hc0
    have hstep : pushRuntimeFrames c t (name :: rest) =
        pushRuntimeFrames (c + 1)
          { t with frames := t.frames ++
              [{ id := c + 1, name := jsOrStr (some name) "<anonymous>" }] } rest := rfl
    rw [hstep] at hr
    have hinv1 := pushFrame_spec c0 c t
      { id := c + 1, name := jsOrStr (some name) "<anonymous>" } hinv rfl hc0
    obtain ⟨hle, hinv2, hmap2, hasync2, new, hnew⟩ := ih c0 (c + 1) _ r hr hinv1 (by omega)
    refine ⟨by omega, hinv2, hmap2, hasync2,
      ({ id := c + 1, name := jsOrStr (some name) "<anonymous>" } :: new), ?_⟩
    rw [hnew]
    simp

/-- One link of `_appendStackTrace`, with the (possibly tail-dropped)
call-frame list already computed: separator frame plus the per-name
appends, or no change when the list is empty. -/
def stepCore (counter : Nat) (t : StackTraceState) (desc : Option String)
    (cfs : List String) : Nat × StackTraceState :=
  if cfs ≠ [] then
    cfs.foldl
      (fun acc name =>
        (acc.1 + 1, appendFrame acc.2
          { id := acc.1 + 1, name := jsOrStr (some name) "<anonymous>" }))
      (counter + 1, appendFrame t
        { id := counter + 1, name := jsOrStr desc "async", isAsyncSeparator := true })
  else (counter, t)

theorem appendStackTrace_cons_eq (c : Nat) (t : StackTraceState) (node : CdpStackNode)
    (rest : List CdpStackNode) :
    appendStackTrace c t (node :: rest) =
      (let step := stepCore c t node.description
          (if node.description = some "async function" ∧ node.callFrames ≠ []
            then node.callFrames.tail else node.callFrames);
       appendStackTrace step.1
        (match node.parentId with
         | some i => { step.2 with asyncId := some i }
         | none => step.2)
        rest) := rfl

theorem stepCore_spec (c0 c : Nat) (t : StackTraceState) (desc : Option String)
    (cfs : List String) (hinv : TraceInv c0 c t) (hc0 : c0 ≤ c) :
    c ≤ (stepCore c t desc cfs).1 ∧
    TraceInv c0 (stepCore c t desc cfs).1 (stepCore c t desc cfs).2 ∧
    TraceExt t (stepCore c t desc cfs).2 := by
  by_cases h : cfs = []
  · subst h
    simp only [stepCore]
    rw [if_neg (fun hne => hne rfl)]
    exact ⟨Nat.le_refl c, hinv, TraceExt.rfl' t⟩
  · simp only [stepCore]
    rw [if_pos h]
    obtain ⟨hinv1, hext1⟩ := appendFrame_spec c0 c t
      { id := c + 1, name := jsOrStr desc "async", isAsyncSeparator := true } hinv rfl hc0
    obtain ⟨hle, hinv2, hext2⟩ := foldAppend_spec cfs c0 (c + 1)
      (appendFrame t
        { id := c + 1, name := jsOrStr desc "async", isAsyncSeparator := true })
      (cfs.foldl
        (fun acc name =>
          (acc.1 + 1, appendFrame acc.2
            { id := acc.1 + 1, name := jsOrStr (some name) "<anonymous>" }))
        (c + 1, appendFrame t
          { id := c + 1, name := jsOrStr desc "async", isAsyncSeparator := true }))
      rfl hinv1 (by omega)
    exact ⟨by omega, hinv2, TraceExt.trans' hext1 hext2⟩

theorem appendStackTrace_spec : ∀ (nodes : List CdpStackNode) (c0 c : Nat)
    (t : StackTraceState) (r : Nat × StackTraceState),
    r = appendStackTrace c t nodes →
    TraceInv c0 c t → c0 ≤ c →
    c ≤ r.1 ∧ TraceInv c0 r.1 r.2 ∧ TraceExt t r.2 := by
  intro nodes
  induction nodes with
  | nil =>
    intro c0 c t r hr hinv hc0
    subst hr
    exact ⟨Nat.le_refl c, hinv, TraceExt.rfl' t⟩
  | cons node rest ih =>
    intro c0 c t r hr hinv hc0
    rw [appendStackTrace_cons_eq] at hr
    obtain ⟨hle1, hinv1, hext1⟩ := stepCore_spec c0 c t node.description
      (if node.description = some "async function" ∧ node.callFrames ≠ []
        then node.callFrames.tail else node.callFrames) hinv hc0
    cases hpid : node.parentId with
    | some i =>
      have hr2 : r = appendStackTrace
          (stepCore c t node.description
            (if node.description = some "async function" ∧ node.callFrames ≠ []
              then node.callFrames.tail else node.callFrames)).1
          { (stepCore c t node.description
              (if node.description = some "async function" ∧ node.callFrames ≠ []
                then node.callFrames.tail else node.callFrames)).2
            with asyncId := some i } rest := by
        rw [hr, hpid]
      obtain ⟨hle2, hinv2, hext2⟩ := ih c0 _ _ r hr2
        (traceInv_asyncId hinv1 (some i)) (by omega)
      exact ⟨by omega, hinv2,
        TraceExt.trans' (TraceExt.trans' hext1 (traceExt_asyncId (some i))) hext2⟩
    | none =>
      have hr2 : r = appendStackTrace
          (stepCore c t node.description
            (if node.description = some "async function" ∧ node.callFrames ≠ []
              then node.callFrames.tail else node.callFrames)).1
          (stepCore c t node.description
            (if node.description = some "async function" ∧ node.callFrames ≠ []
              then node.callFrames.tail else node.callFrames)).2 rest := by
        rw [hr, hpid]
      obtain ⟨hle2, hinv2, hext2⟩ := ih c0 _ _ r hr2 hinv1 (by omega)
      exact ⟨by omega, hinv2, TraceExt.trans' hext1 hext2⟩

theorem emptyTrace_inv (c : Nat) : TraceInv c c emptyTrace := by
  refine ⟨?_, ?_, ?_⟩
  · show (([] : List StackFrame).map fun f => f.id).Chain' (· < ·)
    simp
  · intro f hf
    exact absurd hf (List.not_mem_nil f)
  · intro i f h
    exact absurd h (by simp [emptyTrace])

theorem fromDebugger_inv (c : Nat) (cf : List String) (parent : List CdpStackNode)
    (pid : Option Nat) :
    c ≤ (StackTrace.fromDebugger c cf parent pid).1 ∧
    TraceInv c (StackTrace.fromDebugger c cf parent pid).1
      (StackTrace.fromDebugger c cf parent pid).2 ∧
    TraceExt emptyTrace (StackTrace.fromDebugger c cf parent pid).2 := by
  obtain ⟨hle1, hinv1, hext1⟩ := foldAppend_spec cf c c emptyTrace
    (cf.foldl
      (fun acc name =>
        (acc.1 + 1, appendFrame acc.2
          { id := acc.1 + 1, name := jsOrStr (some name) "<anonymous>" }))
      (c, emptyTrace))
    rfl (emptyTrace_inv c) (Nat.le_refl c)
  cases pid with
  | some i =>
    exact ⟨hle1, traceInv_asyncId hinv1 (some i),
      TraceExt.trans' hext1 (traceExt_asyncId (some i))⟩
  | none =>
    obtain ⟨hle2, hinv2, hext2⟩ := appendStackTrace_spec parent c _ _
      (appendStackTrace
        (cf.foldl
          (fun acc name =>
            (acc.1 + 1, appendFrame acc.2
              { id := acc.1 + 1, name := jsOrStr (some name) "<anonymous>" }))
          (c, emptyTrace)).1
        (cf.foldl
          (fun acc name =>
            (acc.1 + 1, appendFrame acc.2
              { id := acc.1 + 1, name := jsOrStr (some name) "<anonymous>" }))
          (c, emptyTrace)).2 parent)
      rfl hinv1 hle1
    exact ⟨hle1.trans hle2, hinv2, TraceExt.trans' hext1 hext2⟩

theorem fromRuntime_inv (c : Nat) (cf : List String) (parent : List CdpStackNode)
    (pid : Option Nat) :
    c ≤ (StackTrace.fromRuntime c cf parent pid).1 ∧
    TraceInv c (StackTrace.fromRuntime c cf parent pid).1
      (StackTrace.fromRuntime c cf parent pid).2 ∧
    ∃ rest, (StackTrace.fromRuntime c cf parent pid).2.frames =
      (pushRuntimeFrames c emptyTrace cf).2.frames ++ rest ∧
      ∀ f ∈ rest, (StackTrace.fromRuntime c cf parent pid).2.frameById f.id = some f := by
  obtain ⟨hle1, hinv1, hmap1, hasync1, new1, hnew1⟩ := pushRuntimeFrames_spec cf c c
    emptyTrace (pushRuntimeFrames c emptyTrace cf) rfl (emptyTrace_inv c) (Nat.le_refl c)
  cases pid with
  | some i =>
    refine ⟨hle1, traceInv_asyncId hinv1 (some i), [], ?_, ?_⟩
    · exact (List.append_nil _).symm
    · intro f hf
      exact absurd hf (List.not_mem_nil f)
  | none =>
    obtain ⟨hle2, hinv2, hext2⟩ := appendStackTrace_spec parent c _ _
      (appendStackTrace (pushRuntimeFrames c emptyTrace cf).1
        (pushRuntimeFrames c emptyTrace cf).2 parent)
      rfl hinv1 hle1
    obtain ⟨⟨new2, hnew2, hreach2⟩, hpres2⟩ := hext2
    exact ⟨hle1.trans hle2, hinv2, new2, hnew2, hreach2⟩

/-- C8 (amended): the frame-id discipline of `StackTrace`.  Every
constructor threads the shared `++_lastFrameId` counter, so the frames
array always carries strictly increasing ids in `(c, c']` where `c'` is
the counter after construction.  Frames appended through `_appendFrame` —
all of `fromDebugger`'s, and the async-separator and async-parent frames
materialised by `_appendStackTrace` — are registered in `_frameById` and
retrievable via `frame(id)`; but the call frames that `fromRuntime`
pushes directly onto `_frames` bypass `_appendFrame` and are never
registered, so only the frames beyond that pushed block are retrievable
there. -/
theorem stackTrace_ids_spec (c : Nat) (callFrames : List String)
    (parent : List CdpStackNode) (parentId : Option Nat) :
    (c ≤ (StackTrace.fromDebugger c callFrames parent parentId).1 ∧
     (((StackTrace.fromDebugger c callFrames parent parentId).2.frames.map
        fun f => f.id).Chain' (· < ·)) ∧
     (∀ f ∈ (StackTrace.fromDebugger c callFrames parent parentId).2.frames,
        c < f.id ∧ f.id ≤ (StackTrace.fromDebugger c callFrames parent parentId).1 ∧
        StackTrace.frame (StackTrace.fromDebugger c callFrames parent parentId).2 f.id
          = some f)) ∧
    (c ≤ (StackTrace.fromRuntime c callFrames parent parentId).1 ∧
     (((StackTrace.fromRuntime c callFrames parent parentId).2.frames.map
        fun f => f.id).Chain' (· < ·)) ∧
     (∀ f ∈ (StackTrace.fromRuntime c callFrames parent parentId).2.frames,
        c < f.id ∧ f.id ≤ (StackTrace.fromRuntime c callFrames parent parentId).1) ∧
     ∃ rest,
       (StackTrace.fromRuntime c callFrames parent parentId).2.frames =
         (pushRuntimeFrames c emptyTrace callFrames).2.frames ++ rest ∧
       ∀ f ∈ rest,
         StackTrace.frame (StackTrace.fromRuntime c callFrames parent parentId).2 f.id
           = some f) := by
  constructor
  · obtain ⟨hle, ⟨hchain, hbound, hmap⟩, ⟨⟨new, hnew, hreach⟩, hpres⟩⟩ :=
      fromDebugger_inv c callFrames parent parentId
    refine ⟨hle, hchain, ?_⟩
    intro f hf
    obtain ⟨hb1, hb2⟩ := hbound f hf
    refine ⟨hb1, hb2, ?_⟩
    have hmem : f ∈ new := by
      rw [hnew] at hf
      simpa [emptyTrace] using hf
    exact hreach f hmem
  · obtain ⟨hle, ⟨hchain, hbound, hmap⟩, rest, hrest, hreach⟩ :=
      fromRuntime_inv c callFrames parent parentId
    exact ⟨hle, hchain, fun f hf => hbound f hf, rest, hrest, fun f hf => hreach f hf⟩
